import Mathlib

/-!
Verification development for the `luablaze` binding (`src/luablaze.cpp`), a
Lua marshalling layer in front of the Sourcemeta Blaze JSON Schema
compiler/evaluator.  The C++ translation units are shallowly embedded:

* `sourcemeta::core::JSON` becomes the inductive `JSON`;
* Lua runtime values become `LuaValue`; Lua tables live in an explicit
  `Heap` (a list of tables indexed by reference number) so that table
  identity -- which the C++ code observes through `lua_topointer` for cycle
  detection -- is represented faithfully;
* IEEE-754 doubles become `DoubleVal`: an exact rational payload plus a
  finiteness flag.  The binding never computes with doubles; it only moves
  them between the two worlds and tests `std::isfinite`, so this carrier
  loses nothing the code can observe;
* the recursive C++ conversion `lua_value_to_json_abs` walks a possibly
  cyclic heap, so its embedding takes a fuel parameter; every theorem
  supplies enough fuel, and the cyclic inputs are shown to fail with the
  same error the C++ raises;
* the mutable `std::unordered_set<const void *> seen` that the C++ threads
  by reference (inserting each table on entry and erasing it on every exit
  path, success or failure) is modelled by passing the set downward into
  subtree conversions only: the net effect of the insert/erase discipline
  is exactly this path-scoped set.
-/

/-- Model of an IEEE-754 double as handled by the binding: an exact rational
payload together with a finiteness flag (NaN and the infinities are the
values with `finite := false`; their payload is irrelevant).  The C++ code
only copies doubles and tests `std::isfinite`, never computes with them. -/
structure DoubleVal where
  val : Rat
  finite : Bool
deriving DecidableEq, Repr

/-- The canonical JSON value of `sourcemeta::core::JSON`: Null, Boolean,
64-bit Integer, Real (double), String, Array, Object.  Objects are kept as
insertion-ordered key/value lists; `sourcemeta` objects have unique keys
(`assign` is last-write-wins), which theorems assume through an explicit
well-formedness predicate where it matters. -/
inductive JSON where
  | null
  | boolean (b : Bool)
  | integer (i : Int)
  | real (r : DoubleVal)
  | str (s : String)
  | arr (items : List JSON)
  | obj (entries : List (String × JSON))

/-- A Lua runtime value as seen through the C API.  Numbers carry the Lua 5.3+
integer/float subtype distinction (`lua_isinteger` inspects the subtype, not
the numeric value).  Tables are references into a `Heap`.  The last four
constructors are the value kinds the converter rejects. -/
inductive LuaValue where
  | nil
  | boolean (b : Bool)
  | intNum (i : Int)
  | floatNum (f : DoubleVal)
  | str (s : String)
  | table (ref : Nat)
  | func
  | userdata
  | lightuserdata
  | thread
deriving DecidableEq, Repr

/-- A Lua table: its list of key/value pairs, in the order `lua_next`
enumerates them (Lua leaves that order unspecified; the model fixes the
insertion order, one admissible choice).  Real Lua tables never hold `nil`
values and never hold two entries with the same key; tables built by the
embedded operations maintain this. -/
abbrev LuaTable : Type := List (LuaValue × LuaValue)

/-- The Lua heap: table `ref` denotes the table stored at position `ref`.
Allocating a fresh table appends to the heap, so every new table gets a
reference distinct from all existing ones, which is all `lua_topointer`
guarantees. -/
abbrev Heap : Type := List LuaTable

/-- Name of a value kind as returned by `lua_typename` (light userdata shares
the name `userdata` with full userdata). -/
def luaTypeName : LuaValue → String
  | .nil => "nil"
  | .boolean _ => "boolean"
  | .intNum _ => "number"
  | .floatNum _ => "number"
  | .str _ => "string"
  | .table _ => "table"
  | .func => "function"
  | .userdata => "userdata"
  | .lightuserdata => "userdata"
  | .thread => "thread"

/-- Raw table read (`lua_rawget` and friends): the value stored under a key,
or `nil` when the key is absent. -/
def rawget (t : LuaTable) (k : LuaValue) : LuaValue :=
  match List.find? (fun p => decide (p.1 = k)) t with
  | some p => p.2
  | none => .nil

/-- Raw table write (`t[k] = v`): assigning `nil` erases the key, anything
else overwrites in place or appends a fresh entry.  This is the Lua store
semantics behind `lua_rawseti` and `lua_setfield`: a table can never hold an
explicit `nil` entry. -/
def tableSet (t : LuaTable) (k v : LuaValue) : LuaTable :=
  match v with
  | .nil => List.filter (fun p => !(decide (p.1 = k))) t
  | _ =>
      if List.any t (fun p => decide (p.1 = k)) then
        List.map (fun p => if p.1 = k then (k, v) else p) t
      else
        t ++ [(k, v)]

/-- Whether a table has an entry under `k`. -/
def tableHasKey (t : LuaTable) (k : LuaValue) : Bool :=
  List.any t (fun p => decide (p.1 = k))

/-- Assignment into a `sourcemeta` JSON object (`JSON::assign`):
last write wins on duplicate keys, insertion order kept otherwise. -/
def objAssign (es : List (String × JSON)) (k : String) (v : JSON) :
    List (String × JSON) :=
  if List.any es (fun p => decide (p.1 = k)) then
    List.map (fun p => if p.1 = k then (k, v) else p) es
  else
    es ++ [(k, v)]

/-- Whether `pre` is a prefix of `l` (character-list form, fully reducible). -/
def listStartsWith (pre l : List Char) : Bool :=
  match pre, l with
  | [], _ => true
  | _ :: _, [] => false
  | c :: cs, d :: ds => c = d && listStartsWith cs ds

/-- Whether `pat` occurs inside `l` (character-list form). -/
def listContainsSub (pat l : List Char) : Bool :=
  match l with
  | [] => listStartsWith pat []
  | _ :: ds => listStartsWith pat l || listContainsSub pat ds

/-- Substring occurrence test, the model of `std::string_view::find` returning
a hit. -/
def strContainsSub (s pat : String) : Bool :=
  listContainsSub pat.data s.data

/-- A single-quote character as a string, used to build the error messages the
C++ code assembles around user-supplied names. -/
def squo : String := String.singleton (Char.ofNat 39)

/-- Blaze compilation mode (`sourcemeta::blaze::Mode`). -/
inductive Mode where
  | fastValidation
  | exhaustive
deriving DecidableEq, Repr

/-- Embedding of `dialect_uri_from_name` (luablaze.cpp:95-137): a name
containing `"://"` is already a URI and passes through; otherwise a fixed
lookup of short dialect names; anything else is unrecognized. -/
def dialect_uri_from_name (name : String) : Option String :=
  if strContainsSub name "://" then some name
  else if name = "draft2020-12" then some "https://json-schema.org/draft/2020-12/schema"
  else if name = "draft2019-09" then some "https://json-schema.org/draft/2019-09/schema"
  else if name = "draft7" ∨ name = "draft-07" then some "http://json-schema.org/draft-07/schema#"
  else if name = "draft6" ∨ name = "draft-06" then some "http://json-schema.org/draft-06/schema#"
  else if name = "draft4" ∨ name = "draft-04" then some "http://json-schema.org/draft-04/schema#"
  else if name = "draft3" ∨ name = "draft-03" then some "http://json-schema.org/draft-03/schema#"
  else if name = "draft2" ∨ name = "draft-02" then some "http://json-schema.org/draft-02/schema#"
  else if name = "draft1" ∨ name = "draft-01" then some "http://json-schema.org/draft-01/schema#"
  else if name = "draft0" ∨ name = "draft-00" then some "http://json-schema.org/draft-00/schema#"
  else none

/-- Embedding of `parse_mode_string` (luablaze.cpp:139-149): exact string
comparison against the accepted spellings. -/
def parse_mode_string (value : String) : Option Mode :=
  if value = "Fast" ∨ value = "fast" ∨ value = "FastValidation" ∨ value = "fastvalidation" then
    some .fastValidation
  else if value = "Exhaustive" ∨ value = "exhaustive" then
    some .exhaustive
  else none

/-- An options table is an ordinary Lua table presented directly (its pairs);
`lua_getfield` on it is a raw lookup since options tables carry no
metatables. -/
abbrev OptionsTable : Type := List (LuaValue × LuaValue)

/-- The C `lua_isstring`, which is true for strings and also for numbers
(numbers are convertible to strings). -/
def lua_isstring (v : LuaValue) : Bool :=
  match v with
  | .str _ => true
  | .intNum _ => true
  | .floatNum _ => true
  | _ => false

/-- The C `lua_isinteger`: true exactly for values of the integer subtype. -/
def lua_isinteger (v : LuaValue) : Bool :=
  match v with
  | .intNum _ => true
  | _ => false

/-- Decimal rendering of a host float (`lua_tolstring` on a float value): the
runtime formats with a platform `printf` format, abstracted here as the
decimal form of the rational payload; no claim observes this string. -/
def floatFormat (f : DoubleVal) : String := toString f.val

/-- The C `lua_tolstring`: the string itself, or the decimal form of a number
(the only cases reached, since calls are guarded by `lua_isstring`). -/
def lua_tolstring (v : LuaValue) : String :=
  match v with
  | .str s => s
  | .intNum i => toString i
  | .floatNum f => floatFormat f
  | _ => ""

/-- Field read on the options table (`lua_getfield`). -/
def lua_getfield (t : OptionsTable) (name : String) : LuaValue :=
  rawget t (.str name)

/-- The resolved option set `parse_options_table` fills in. -/
structure Options where
  mode : Mode
  default_dialect : Option String
  max_array_length : Nat
  max_depth : Nat
  max_recursion_depth : Nat
deriving DecidableEq, Repr

/-- Default limits (luablaze.cpp:75-77) and defaults of `luablaze_new`
(luablaze.cpp:876-880). -/
def defaultOptions : Options :=
  ⟨Mode.fastValidation, none, 100000, 128, 100⟩

/-- Embedding of `validate_options_table_keys` (luablaze.cpp:156-170): every
key of the options table must satisfy `lua_isstring` (which numbers also
do). -/
def validate_options_table_keys (t : OptionsTable) : Except String Unit :=
  if List.all t (fun p => lua_isstring p.1) then .ok ()
  else .error "Options table keys must be strings"

/-- The `mode` key of `parse_options_table` (luablaze.cpp:180-198). -/
def parse_option_mode (t : OptionsTable) (cur : Mode) : Except String Mode :=
  let v := lua_getfield t "mode"
  if v = .nil then .ok cur
  else if !(lua_isstring v) then .error "options.mode must be a string"
  else
    let mode_name := lua_tolstring v
    match parse_mode_string mode_name with
    | none => .error ("Unknown mode " ++ squo ++ mode_name ++ squo)
    | some m => .ok m

/-- The `dialect` key of `parse_options_table` (luablaze.cpp:200-217). -/
def parse_option_dialect (t : OptionsTable) (cur : Option String) :
    Except String (Option String) :=
  let v := lua_getfield t "dialect"
  if v = .nil then .ok cur
  else if !(lua_isstring v) then .error "options.dialect must be a string"
  else
    let dialect_name := lua_tolstring v
    match dialect_uri_from_name dialect_name with
    | none => .error ("Unknown dialect " ++ squo ++ dialect_name ++ squo)
    | some uri => .ok (some uri)

/-- One numeric limit key of `parse_options_table` (luablaze.cpp:219-268);
the three limit keys share this exact shape in the C++. -/
def parse_option_limit (t : OptionsTable) (key : String) (cur : Nat) :
    Except String Nat :=
  let v := lua_getfield t key
  if v = .nil then .ok cur
  else if !(lua_isinteger v) then .error ("options." ++ key ++ " must be an integer")
  else
    match v with
    | .intNum i =>
        if i < 0 then .error ("options." ++ key ++ " must be >= 0")
        else .ok i.toNat
    | _ => .error ("options." ++ key ++ " must be an integer")

/-- Embedding of `parse_options_table` (luablaze.cpp:172-271), fed with the
current (default) values the C++ takes by reference. -/
def parse_options_table (t : OptionsTable) (init : Options) :
    Except String Options :=
  match validate_options_table_keys t with
  | .error e => .error e
  | .ok _ =>
  match parse_option_mode t init.mode with
  | .error e => .error e
  | .ok mode =>
  match parse_option_dialect t init.default_dialect with
  | .error e => .error e
  | .ok dd =>
  match parse_option_limit t "max_array_length" init.max_array_length with
  | .error e => .error e
  | .ok mal =>
  match parse_option_limit t "max_depth" init.max_depth with
  | .error e => .error e
  | .ok md =>
  match parse_option_limit t "max_recursion_depth" init.max_recursion_depth with
  | .error e => .error e
  | .ok mrd => .ok ⟨mode, dd, mal, md, mrd⟩

mutual

/-- Embedding of `json_to_lua_value` (luablaze.cpp:351-388): scalar JSON
values map to the corresponding Lua values (a `null` becomes `nil`), arrays
and objects build fresh tables; the recursion-depth counter is checked on
entry (0 = unlimited). -/
def json_to_lua_value (value : JSON) (max_recursion_depth depth : Nat) (H : Heap) :
    Except String (LuaValue × Heap) :=
  if max_recursion_depth > 0 ∧ depth > max_recursion_depth then
    .error ("Maximum recursion depth exceeded in JSON conversion (depth=" ++ toString depth ++ ")")
  else
    match value with
    | .null => .ok (.nil, H)
    | .boolean b => .ok (.boolean b, H)
    | .integer i => .ok (.intNum i, H)
    | .real r => .ok (.floatNum r, H)
    | .str s => .ok (.str s, H)
    | .arr items => json_array_to_lua_table items max_recursion_depth depth H
    | .obj entries => json_object_to_lua_table entries max_recursion_depth depth H
termination_by (sizeOf value, 0)

/-- Embedding of `json_array_to_lua_table` (luablaze.cpp:331-349).  The
`lua_checkstack` headroom probe always succeeds here (the model has no host C
stack to exhaust).  The C++ allocates the fresh table before filling it;
nothing can observe the partially filled table (conversion failure pops it,
and children cannot reference it), so the model allocates it once its
contents are complete -- only the numbering of references differs. -/
def json_array_to_lua_table (items : List JSON) (max_recursion_depth depth : Nat)
    (H : Heap) : Except String (LuaValue × Heap) :=
  match json_array_elems items 0 max_recursion_depth depth H [] with
  | .error e => .error e
  | .ok (t, H2) => .ok (.table H2.length, H2 ++ [t])
termination_by (sizeOf items, 1)

/-- The element loop of `json_array_to_lua_table` (luablaze.cpp:340-347):
convert element `i`, report failures with the index path, and store under the
1-based integer key with `lua_rawseti` semantics (`tableSet`: storing the
`nil` produced from a JSON `null` leaves the key unpopulated). -/
def json_array_elems (items : List JSON) (i : Nat) (max_recursion_depth depth : Nat)
    (H : Heap) (acc : LuaTable) : Except String (LuaTable × Heap) :=
  match items with
  | [] => .ok (acc, H)
  | x :: rest =>
      match json_to_lua_value x max_recursion_depth (depth + 1) H with
      | .error e => .error ("Error converting JSON array at index " ++ toString i ++ ": " ++ e)
      | .ok (lv, H2) =>
          json_array_elems rest (i + 1) max_recursion_depth depth H2
            (tableSet acc (.intNum (Int.ofNat (i + 1))) lv)
termination_by (sizeOf items, 0)

/-- Embedding of `json_object_to_lua_table` (luablaze.cpp:312-329), with the
same allocation convention as `json_array_to_lua_table`. -/
def json_object_to_lua_table (entries : List (String × JSON)) (max_recursion_depth depth : Nat)
    (H : Heap) : Except String (LuaValue × Heap) :=
  match json_object_entries entries max_recursion_depth depth H [] with
  | .error e => .error e
  | .ok (t, H2) => .ok (.table H2.length, H2 ++ [t])
termination_by (sizeOf entries, 1)

/-- The member loop of `json_object_to_lua_table` (luablaze.cpp:320-327):
convert each member value, report failures with the property path, and store
under the string key with `lua_setfield` semantics. -/
def json_object_entries (entries : List (String × JSON)) (max_recursion_depth depth : Nat)
    (H : Heap) (acc : LuaTable) : Except String (LuaTable × Heap) :=
  match entries with
  | [] => .ok (acc, H)
  | (key, val) :: rest =>
      match json_to_lua_value val max_recursion_depth (depth + 1) H with
      | .error e =>
          .error ("Error converting JSON object property " ++ squo ++ key ++ squo ++ ": " ++ e)
      | .ok (lv, H2) =>
          json_object_entries rest max_recursion_depth depth H2 (tableSet acc (.str key) lv)
termination_by (sizeOf entries, 0)

end

/-- Largest `std::size_t` value; `lua_table_to_json_abs` refuses an array
whose maximum index reaches it (luablaze.cpp:445-451). -/
def USIZE_MAX : Nat := 2 ^ 64 - 1

/-- Whether one table key counts as an array index in the classification pass
of `lua_table_to_json_abs` (luablaze.cpp:420-434): the key must be a number
whose `lua_tointeger` image casts back to the same `lua_Number` and is
strictly positive.  Integer-subtype keys always survive the round-cast;
float-subtype keys survive exactly when finite with an exact integer value in
the 64-bit range (`lua_tointeger` yields 0 otherwise, and 0 compares unequal
to any nonzero float). -/
def keyArrayIndex (k : LuaValue) : Option Nat :=
  match k with
  | .intNum i => if i ≤ 0 then none else some i.toNat
  | .floatNum f =>
      let ki : Int :=
        if f.finite ∧ f.val.den = 1 ∧ -(2 ^ 63) ≤ f.val.num ∧ f.val.num < 2 ^ 63 then
          f.val.num
        else 0
      if (f.finite ∧ (ki : Rat) = f.val) ∧ ki > 0 then some ki.toNat else none
  | _ => none

/-- The classification sweep of `lua_table_to_json_abs`
(luablaze.cpp:415-436): one `lua_next` pass accumulating
`(is_array, max_index, count_int_keys)`; a non-qualifying key clears
`is_array` but the sweep still continues to completion. -/
def classifyStep (acc : Bool × Nat × Nat) (p : LuaValue × LuaValue) : Bool × Nat × Nat :=
  match keyArrayIndex p.1 with
  | some ki => (acc.1, max acc.2.1 ki, acc.2.2 + 1)
  | none => (false, acc.2.1, acc.2.2)

def classifyTable (t : LuaTable) : Bool × Nat × Nat :=
  List.foldl classifyStep (true, 0, 0) t

/-- The `UnsupportedType` message of `lua_value_to_json_abs`
(luablaze.cpp:565-576), including the per-kind parenthetical. -/
def unsupportedMsg (v : LuaValue) : String :=
  "Unsupported Lua type for JSON conversion: " ++ luaTypeName v ++
    (match v with
     | .userdata => " (userdata cannot be converted to JSON)"
     | .lightuserdata => " (userdata cannot be converted to JSON)"
     | .func => " (functions cannot be converted to JSON)"
     | .thread => " (threads cannot be converted to JSON)"
     | _ => "")

/-- The per-index loop of the array branch of `lua_table_to_json_abs`
(luablaze.cpp:461-476), abstracted over the conversion applied to elements:
indices `i, i+1, ...` for `rem` steps; an index whose `lua_rawgeti` read
gives `nil` contributes a JSON `null` without recursing. -/
def conv_array_items (convert : LuaValue → Except String JSON) (t : LuaTable) :
    Nat → Nat → Except String (List JSON)
  | _, 0 => .ok []
  | i, rem + 1 =>
      let element := rawget t (.intNum (Int.ofNat i))
      match (if element = .nil then .ok JSON.null else convert element) with
      | .error e => .error e
      | .ok jv =>
          match conv_array_items convert t (i + 1) rem with
          | .error e => .error e
          | .ok rest => .ok (jv :: rest)

/-- The second `lua_next` loop of `lua_table_to_json_abs`
(luablaze.cpp:486-511), abstracted over the conversion applied to member
values: every key must be of string type, and converted members are stored
with the last-write-wins `JSON::assign`. -/
def conv_object_entries (convert : LuaValue → Except String JSON) :
    LuaTable → List (String × JSON) → Except String (List (String × JSON))
  | [], acc => .ok acc
  | (k, v) :: rest, acc =>
      match k with
      | .str ks =>
          match convert v with
          | .error e => .error e
          | .ok jv => conv_object_entries convert rest (objAssign acc ks jv)
      | _ => .error ("Object table keys must be strings (found " ++ luaTypeName k ++ ")")

/-- Embedding of `lua_value_to_json_abs` (luablaze.cpp:527-579) with
`lua_table_to_json_abs` (luablaze.cpp:397-518) inlined at the table case, so
that the recursion is structural on an explicit fuel bound (the heap, unlike
a JSON tree, can be cyclic; every theorem supplies fuel exceeding what its
input can consume, and cyclic inputs are shown to fail exactly as the C++
does).  The redundant re-check of the recursion depth at the head of
`lua_table_to_json_abs` -- performed at the same `depth` as the check in its
caller and therefore with the same outcome -- is collapsed into the single
entry check.  The C++ threads the `seen` set by reference, inserting the
table on entry and erasing it on every exit path; passing the extended set
only downward into the subtree realizes exactly that discipline. -/
def lua_value_to_json_abs (H : Heap) (max_array_length max_recursion_depth : Nat) :
    Nat → LuaValue → List Nat → Nat → Except String JSON
  | 0, _, _, _ => .error "model artifact: conversion fuel exhausted"
  | fuel + 1, v, seen, depth =>
    if max_recursion_depth > 0 ∧ depth > max_recursion_depth then
      .error ("Maximum recursion depth exceeded (depth=" ++ toString depth ++ ")")
    else
      match v with
      | .nil => .ok .null
      | .boolean b => .ok (.boolean b)
      | .intNum i => .ok (.integer i)
      | .floatNum f =>
          if f.finite then .ok (.real f)
          else .error "Non-finite numbers (NaN/Inf) are not valid JSON numbers"
      | .str s => .ok (.str s)
      | .table r =>
          if r ∈ seen then .error "Cycle detected in Lua table"
          else
            match H[r]? with
            | none => .error "model artifact: dangling table reference"
            | some t =>
                let c := classifyTable t
                let is_array := c.1 && !(decide (c.2.2 = 0))
                if is_array then
                  if c.2.1 = USIZE_MAX then
                    .error "Array index too large (integer overflow risk)"
                  else if max_array_length > 0 ∧ c.2.1 > max_array_length then
                    .error "Array length exceeds max_array_length"
                  else
                    match conv_array_items
                        (fun w => lua_value_to_json_abs H max_array_length max_recursion_depth
                          fuel w (r :: seen) (depth + 1)) t 1 c.2.1 with
                    | .error e => .error e
                    | .ok items => .ok (.arr items)
                else
                  match conv_object_entries
                      (fun w => lua_value_to_json_abs H max_array_length max_recursion_depth
                        fuel w (r :: seen) (depth + 1)) t [] with
                  | .error e => .error e
                  | .ok entries => .ok (.obj entries)
      | other => .error (unsupportedMsg other)

/-- Embedding of the `lua_value_to_json` entry point as the validate paths
use it (luablaze.cpp:693-699): conversion of the instance at depth 0 with an
empty visited set. -/
def lua_value_to_json (H : Heap) (max_array_length max_recursion_depth fuel : Nat)
    (v : LuaValue) : Except String JSON :=
  lua_value_to_json_abs H max_array_length max_recursion_depth fuel v [] 0

/-- Phase of the structural parse callback (`JSON::ParsePhase`). -/
inductive JPhase where
  | pre
  | post
deriving DecidableEq, Repr

/-- Node type as reported to the parse callback (`JSON::Type`); the depth
guard only distinguishes arrays and objects from the rest. -/
inductive JType where
  | null
  | boolean
  | integer
  | real
  | str
  | array
  | object
deriving DecidableEq, Repr

/-- The type tag the parser reports for a value. -/
def jtypeOf : JSON → JType
  | .null => .null
  | .boolean _ => .boolean
  | .integer _ => .integer
  | .real _ => .real
  | .str _ => .str
  | .arr _ => .array
  | .obj _ => .object

mutual

/-- The sequence of callback invocations the external parser performs while
parsing a text for this value: entry and exit of every node, in document
order (the guard ignores everything but array/object entries and exits, so
any richer event stream restricts to this one). -/
def nodeEvents (v : JSON) : List (JPhase × JType) :=
  match v with
  | .arr items => (JPhase.pre, JType.array) :: (arrEvents items ++ [(JPhase.post, JType.array)])
  | .obj entries => (JPhase.pre, JType.object) :: (objEvents entries ++ [(JPhase.post, JType.object)])
  | w => [(JPhase.pre, jtypeOf w), (JPhase.post, jtypeOf w)]
termination_by (sizeOf v, 1)

/-- Events of an array's elements, in order. -/
def arrEvents (items : List JSON) : List (JPhase × JType) :=
  match items with
  | [] => []
  | x :: rest => nodeEvents x ++ arrEvents rest
termination_by (sizeOf items, 0)

/-- Events of an object's member values, in order. -/
def objEvents (entries : List (String × JSON)) : List (JPhase × JType) :=
  match entries with
  | [] => []
  | (_, val) :: rest => nodeEvents val ++ objEvents rest
termination_by (sizeOf entries, 0)

end

/-- The depth-counting callback of `parse_json_with_depth_limit`
(luablaze.cpp:587-603), folded over the event stream: increment on entry of
an array or object and abort once the counter exceeds `max_depth`, decrement
on exit (never below zero); other nodes are ignored. -/
def run_depth_guard (max_depth : Nat) : List (JPhase × JType) → Nat → Except String Nat
  | [], d => .ok d
  | (phase, ty) :: rest, d =>
      if ty = JType.array ∨ ty = JType.object then
        match phase with
        | .pre =>
            if d + 1 > max_depth then .error "JSON maximum nesting depth exceeded"
            else run_depth_guard max_depth rest (d + 1)
        | .post => run_depth_guard max_depth rest (if d > 0 then d - 1 else d)
      else run_depth_guard max_depth rest d

/-- Embedding of `parse_json_with_depth_limit` (luablaze.cpp:581-606).  The
external text parser is a collaborator, passed as `parseF`; a well-formed
JSON text is one on which it succeeds, and while parsing it invokes the
structural callback on every node (the `nodeEvents` stream of the resulting
value).  With `max_depth = 0` the parse is delegated unmodified; otherwise
the callback's depth counter aborts the parse by throwing. -/
def parse_json_with_depth_limit (parseF : String → Except String JSON)
    (input : String) (max_depth : Nat) : Except String JSON :=
  if max_depth = 0 then parseF input
  else
    match parseF input with
    | .error e => .error e
    | .ok v =>
        match run_depth_guard max_depth (nodeEvents v) 0 with
        | .ok _ => .ok v
        | .error e => .error e

mutual

/-- Maximum container nesting depth of a JSON value: scalars are 0, an array
or object is one more than its deepest child (an empty container is 1). -/
def cdepth (v : JSON) : Nat :=
  match v with
  | .arr items => 1 + arrCdepth items
  | .obj entries => 1 + objCdepth entries
  | _ => 0
termination_by (sizeOf v, 1)

/-- Deepest container nesting among an array's elements. -/
def arrCdepth (items : List JSON) : Nat :=
  match items with
  | [] => 0
  | x :: rest => max (cdepth x) (arrCdepth rest)
termination_by (sizeOf items, 0)

/-- Deepest container nesting among an object's member values. -/
def objCdepth (entries : List (String × JSON)) : Nat :=
  match entries with
  | [] => 0
  | (_, val) :: rest => max (cdepth val) (objCdepth rest)
termination_by (sizeOf entries, 0)

end

/-- Handle payload of a compiled schema (luablaze.cpp:285-293): the Blaze
template (opaque collaborator output, a type parameter here), the three
conversion limits, and the metadata strings.  The evaluator the C++ stores
alongside is mutable scratch state of the external evaluation collaborator
and carries no observable model state. -/
structure CompiledSchema (T : Type) where
  schema_template : T
  max_array_length : Nat
  max_depth : Nat
  max_recursion_depth : Nat
  mode_name : String
  dialect_name : String

/-- Embedding of `luablaze_new` (luablaze.cpp:868-925).  `parseF` is the
external JSON text parser and `compileF` the Blaze compiler, both
collaborators.  `opts` is the second call argument (`none` when absent) read
against the heap `H`; `extraArg` records whether a third argument was
passed.  The empty-schema guard fires before anything else. -/
def luablaze_new {T : Type} (parseF : String → Except String JSON)
    (compileF : JSON → Mode → Option String → Except String T)
    (H : Heap) (schema : String) (opts : Option LuaValue) (extraArg : Bool) :
    Except String (CompiledSchema T) :=
  if schema.length = 0 then .error "schema cannot be empty"
  else
    match (match opts with
           | none => .ok defaultOptions
           | some .nil => .ok defaultOptions
           | some (.table r) =>
               match H[r]? with
               | some t => parse_options_table t defaultOptions
               | none => .error "model artifact: dangling table reference"
           | some _ => .error "options_table must be a table" : Except String Options) with
    | .error e => .error e
    | .ok o =>
        if extraArg then
          .error "luablaze.new expects (schema_json) or (schema_json, options_table)"
        else
          let mode_name := if o.mode = Mode.fastValidation then "Fast" else "Exhaustive"
          let dialect_name := o.default_dialect.getD "auto"
          match parse_json_with_depth_limit parseF schema o.max_depth with
          | .error e => .error e
          | .ok schemaJSON =>
              match compileF schemaJSON o.mode o.default_dialect with
              | .error e => .error e
              | .ok tpl =>
                  .ok ⟨tpl, o.max_array_length, o.max_depth, o.max_recursion_depth,
                       mode_name, dialect_name⟩

/-- Extraction of the boolean `valid` field from the standard-output report
(luablaze.cpp:770-772 and 813-815): the report value when it is an object
defining a boolean `valid`, and `false` in every other case.  (The Blaze
standard output is always an object; a non-object report cannot define any
member.) -/
def extract_valid (result : JSON) : Bool :=
  match result with
  | .obj es =>
      match List.find? (fun p => decide (p.1 = "valid")) es with
      | some (_, .boolean b) => b
      | _ => false
  | _ => false

/-- Embedding of `compiled_schema_validate_detailed` (luablaze.cpp:754-787):
convert the instance table to JSON, run the evaluator's standard Basic
output (`standardF`, a collaborator), extract `valid`, and convert the full
report back to a Lua value for the second return. -/
def compiled_schema_validate_detailed {T : Type} (standardF : T → JSON → JSON)
    (cs : CompiledSchema T) (H : Heap) (fuel : Nat) (inst : Nat) :
    Except String (Bool × (LuaValue × Heap)) :=
  match lua_value_to_json H cs.max_array_length cs.max_recursion_depth fuel (.table inst) with
  | .error e => .error e
  | .ok instanceJSON =>
      let result := standardF cs.schema_template instanceJSON
      let is_valid := extract_valid result
      match json_to_lua_value result cs.max_recursion_depth 0 H with
      | .error e => .error e
      | .ok lv => .ok (is_valid, lv)

/-- Embedding of `compiled_schema_validate_json_detailed`
(luablaze.cpp:802-831): like `compiled_schema_validate_detailed` but the
instance arrives as JSON text and goes through the depth-guarded parse. -/
def compiled_schema_validate_json_detailed {T : Type} (parseF : String → Except String JSON)
    (standardF : T → JSON → JSON) (cs : CompiledSchema T) (H : Heap)
    (instance_text : String) : Except String (Bool × (LuaValue × Heap)) :=
  match parse_json_with_depth_limit parseF instance_text cs.max_depth with
  | .error e => .error e
  | .ok instanceJSON =>
      let result := standardF cs.schema_template instanceJSON
      let is_valid := extract_valid result
      match json_to_lua_value result cs.max_recursion_depth 0 H with
      | .error e => .error e
      | .ok lv => .ok (is_valid, lv)

/-- Short dialect names the lookup table recognizes. -/
def knownDialectNames : List String :=
  ["draft2020-12", "draft2019-09", "draft7", "draft-07", "draft6", "draft-06",
   "draft4", "draft-04", "draft3", "draft-03", "draft2", "draft-02",
   "draft1", "draft-01", "draft0", "draft-00"]

/-- C4 counterexample: the spec range `draft0..draft7` includes `draft5`, but
the lookup table has no entry for `draft5` or `draft-05`; options parsing
fails with the unknown-dialect error instead of resolving a metaschema
URI. -/
theorem C4_counterexample :
    dialect_uri_from_name "draft5" = none ∧
    dialect_uri_from_name "draft-05" = none ∧
    parse_options_table [(.str "dialect", .str "draft5")] defaultOptions =
      .error ("Unknown dialect " ++ squo ++ "draft5" ++ squo) :=
  ⟨rfl, rfl, rfl⟩

/-- C4 (amended): every short dialect name `draft0..draft7` except `draft5`
(and hyphenated `draft-00..draft-07` except `draft-05`, plus `draft2019-09`
and `draft2020-12`) maps to its canonical metaschema URI; a dialect string
containing `"://"` is passed through verbatim; any other name makes options
parsing fail with an unknown-dialect error. -/
theorem C4_dialect_resolution :
    (∀ name, strContainsSub name "://" = true → dialect_uri_from_name name = some name) ∧
    (dialect_uri_from_name "draft2020-12" = some "https://json-schema.org/draft/2020-12/schema" ∧
     dialect_uri_from_name "draft2019-09" = some "https://json-schema.org/draft/2019-09/schema" ∧
     dialect_uri_from_name "draft7" = some "http://json-schema.org/draft-07/schema#" ∧
     dialect_uri_from_name "draft-07" = some "http://json-schema.org/draft-07/schema#" ∧
     dialect_uri_from_name "draft6" = some "http://json-schema.org/draft-06/schema#" ∧
     dialect_uri_from_name "draft-06" = some "http://json-schema.org/draft-06/schema#" ∧
     dialect_uri_from_name "draft4" = some "http://json-schema.org/draft-04/schema#" ∧
     dialect_uri_from_name "draft-04" = some "http://json-schema.org/draft-04/schema#" ∧
     dialect_uri_from_name "draft3" = some "http://json-schema.org/draft-03/schema#" ∧
     dialect_uri_from_name "draft-03" = some "http://json-schema.org/draft-03/schema#" ∧
     dialect_uri_from_name "draft2" = some "http://json-schema.org/draft-02/schema#" ∧
     dialect_uri_from_name "draft-02" = some "http://json-schema.org/draft-02/schema#" ∧
     dialect_uri_from_name "draft1" = some "http://json-schema.org/draft-01/schema#" ∧
     dialect_uri_from_name "draft-01" = some "http://json-schema.org/draft-01/schema#" ∧
     dialect_uri_from_name "draft0" = some "http://json-schema.org/draft-00/schema#" ∧
     dialect_uri_from_name "draft-00" = some "http://json-schema.org/draft-00/schema#") ∧
    (∀ name, strContainsSub name "://" = false → name ∉ knownDialectNames →
      dialect_uri_from_name name = none) ∧
    (∀ name init, dialect_uri_from_name name = none →
      parse_options_table [(.str "dialect", .str name)] init =
        .error ("Unknown dialect " ++ squo ++ name ++ squo)) := by
  refine ⟨?_, ?_, ?_, ?_⟩
  · intro name h
    simp [dialect_uri_from_name, h]
  · exact ⟨rfl, rfl, rfl, rfl, rfl, rfl, rfl, rfl, rfl, rfl, rfl, rfl, rfl, rfl, rfl, rfl⟩
  · intro name h hn
    simp [knownDialectNames] at hn
    obtain ⟨h1, h2, h3, h4, h5, h6, h7, h8, h9, h10, h11, h12, h13, h14, h15, h16⟩ := hn
    simp [dialect_uri_from_name, h, h1, h2, h3, h4, h5, h6, h7, h8, h9, h10, h11, h12, h13,
      h14, h15, h16]
  · intro name init h
    simp [parse_options_table, validate_options_table_keys, parse_option_mode,
      parse_option_dialect, lua_getfield, rawget, lua_isstring, lua_tolstring, h]

/-- Witness for C4: the amended theorem applied at a verbatim URI and at the
unrecognized name `draftX`. -/
theorem C4_witness :
    strContainsSub "https://example.com/meta" "://" = true ∧
    dialect_uri_from_name "https://example.com/meta" = some "https://example.com/meta" ∧
    ("draftX" ∉ knownDialectNames ∧ strContainsSub "draftX" "://" = false) ∧
    dialect_uri_from_name "draftX" = none ∧
    parse_options_table [(.str "dialect", .str "draftX")] defaultOptions =
      .error ("Unknown dialect " ++ squo ++ "draftX" ++ squo) :=
  ⟨by decide, C4_dialect_resolution.1 "https://example.com/meta" (by decide),
   ⟨by decide, by decide⟩,
   C4_dialect_resolution.2.2.1 "draftX" (by decide) (by decide),
   C4_dialect_resolution.2.2.2 "draftX" defaultOptions
     (C4_dialect_resolution.2.2.1 "draftX" (by decide) (by decide))⟩

/-- C5 counterexample: matching is not case-insensitive: the capitalization
`"FAST"` of `fast` does not select FastValidation; options parsing fails
with the unknown-mode error. -/
theorem C5_counterexample :
    parse_mode_string "FAST" = none ∧
    parse_options_table [(.str "mode", .str "FAST")] defaultOptions =
      .error ("Unknown mode " ++ squo ++ "FAST" ++ squo) :=
  ⟨rfl, rfl⟩

/-- C5 (amended): the mode option is matched exactly (case-sensitively)
against the six spellings `Fast`, `fast`, `FastValidation`,
`fastvalidation` (FastValidation) and `Exhaustive`, `exhaustive`
(Exhaustive); when the key is absent the FastValidation default stays; any
other string value makes options parsing fail with an unknown-mode
error. -/
theorem C5_mode_matching :
    (parse_mode_string "Fast" = some Mode.fastValidation ∧
     parse_mode_string "fast" = some Mode.fastValidation ∧
     parse_mode_string "FastValidation" = some Mode.fastValidation ∧
     parse_mode_string "fastvalidation" = some Mode.fastValidation ∧
     parse_mode_string "Exhaustive" = some Mode.exhaustive ∧
     parse_mode_string "exhaustive" = some Mode.exhaustive) ∧
    (∀ s, s ≠ "Fast" → s ≠ "fast" → s ≠ "FastValidation" → s ≠ "fastvalidation" →
      s ≠ "Exhaustive" → s ≠ "exhaustive" → parse_mode_string s = none) ∧
    (∀ init, parse_options_table [] init = .ok init) ∧
    (∀ s init m, parse_mode_string s = some m →
      parse_options_table [(.str "mode", .str s)] init =
        .ok ⟨m, init.default_dialect, init.max_array_length, init.max_depth,
             init.max_recursion_depth⟩) ∧
    (∀ s init, parse_mode_string s = none →
      parse_options_table [(.str "mode", .str s)] init =
        .error ("Unknown mode " ++ squo ++ s ++ squo)) := by
  refine ⟨⟨rfl, rfl, rfl, rfl, rfl, rfl⟩, ?_, ?_, ?_, ?_⟩
  · intro s h1 h2 h3 h4 h5 h6
    simp [parse_mode_string, h1, h2, h3, h4, h5, h6]
  · intro init
    rfl
  · intro s init m h
    simp [parse_options_table, validate_options_table_keys, parse_option_mode,
      parse_option_dialect, parse_option_limit, lua_getfield, rawget, lua_isstring,
      lua_isinteger, lua_tolstring, h]
  · intro s init h
    simp [parse_options_table, validate_options_table_keys, parse_option_mode,
      lua_getfield, rawget, lua_isstring, lua_tolstring, h]

/-- Witness for C5: the amended theorem applied at `"fast"`, at an absent
mode key, and at the rejected spelling `"EXHAUSTIVE"`. -/
theorem C5_witness :
    parse_mode_string "EXHAUSTIVE" = none ∧
    parse_options_table [] defaultOptions = .ok defaultOptions ∧
    parse_options_table [(.str "mode", .str "fast")] defaultOptions =
      .ok ⟨Mode.fastValidation, none, 100000, 128, 100⟩ ∧
    parse_options_table [(.str "mode", .str "EXHAUSTIVE")] defaultOptions =
      .error ("Unknown mode " ++ squo ++ "EXHAUSTIVE" ++ squo) :=
  ⟨C5_mode_matching.2.1 "EXHAUSTIVE" (by decide) (by decide) (by decide) (by decide)
     (by decide) (by decide),
   C5_mode_matching.2.2.1 defaultOptions,
   C5_mode_matching.2.2.2.1 "fast" defaultOptions Mode.fastValidation rfl,
   C5_mode_matching.2.2.2.2 "EXHAUSTIVE" defaultOptions
     (C5_mode_matching.2.1 "EXHAUSTIVE" (by decide) (by decide) (by decide) (by decide)
       (by decide) (by decide))⟩

/-- C9: constructing a compiled schema from the empty string always fails
with "schema cannot be empty", whatever the options argument, the external
parser, and the compiler do -- so no options parsing, JSON parsing, or
compilation is ever consulted and no compiled schema is produced. -/
theorem C9_empty_schema_rejected :
    ∀ (T : Type) (parseF : String → Except String JSON)
      (compileF : JSON → Mode → Option String → Except String T)
      (H : Heap) (opts : Option LuaValue) (extraArg : Bool),
      luablaze_new parseF compileF H "" opts extraArg = .error "schema cannot be empty" := by
  intro T parseF compileF H opts extraArg
  rfl

/-- Host table with `t[1] = t`: the self-referencing cycle of the spec. -/
def heapCyclic : Heap := [[(.intNum 1, .table 0)]]

/-- A shared subtable reachable twice from the root (a DAG, not a cycle):
table 1 is `[s, s]` where `s` is table 0, the object `v = "x"`. -/
def heapShared : Heap := [[(.str "v", .str "x")], [(.intNum 1, .table 0), (.intNum 2, .table 0)]]

/-- C7: a host table `t` with `t[1] = t` fails Host→JSON conversion with
CycleDetected (at every sufficient fuel, so the conversion terminates
rather than recursing forever), while the same table reachable via two
non-overlapping paths (a DAG) converts successfully, because each table is
tracked only on the active recursion path. -/
theorem C7_cycle_scoped :
    lua_value_to_json heapCyclic 0 0 10 (.table 0) = .error "Cycle detected in Lua table" ∧
    (∀ fuel, 2 ≤ fuel →
      lua_value_to_json heapCyclic 0 0 fuel (.table 0) = .error "Cycle detected in Lua table") ∧
    lua_value_to_json heapShared 0 0 10 (.table 1) =
      .ok (.arr [.obj [("v", .str "x")], .obj [("v", .str "x")]]) := by
  refine ⟨rfl, ?_, rfl⟩
  intro fuel h
  obtain ⟨f, rfl⟩ : ∃ f, fuel = f + 2 := ⟨fuel - 2, by omega⟩
  rfl

/-- Witness for C7: the fuel-independence part applied at fuel 2. -/
theorem C7_witness :
    2 ≤ 2 ∧ lua_value_to_json heapCyclic 0 0 2 (.table 0) = .error "Cycle detected in Lua table" :=
  ⟨by decide, C7_cycle_scoped.2.1 2 (by decide)⟩

/-- Host table with keys exactly `{1, 2, 3}`. -/
def heapArr3 : Heap := [[(.intNum 1, .str "x"), (.intNum 2, .boolean true), (.intNum 3, .intNum 42)]]

/-- Host table with keys exactly `{1, 2, "a"}`. -/
def heapMixedKeys : Heap := [[(.intNum 1, .str "x"), (.intNum 2, .str "y"), (.str "a", .str "z")]]

/-- A host table with no entries. -/
def heapEmptyTable : Heap := [[]]

/-- C3 counterexample: a table whose keys are exactly `{1, 2, "a"}` does not
convert to a JSON object with string keys; the object branch rejects its
first non-string key with the NonStringKey error. -/
theorem C3_counterexample :
    lua_value_to_json heapMixedKeys 0 0 10 (.table 0) =
      .error "Object table keys must be strings (found number)" := rfl

/-- C3 (amended): a table with keys exactly `{1,2,3}` converts to the JSON
array of its three element values; a table with keys exactly `{1,2,"a"}`
fails with the NonStringKey error (numeric keys are not stringified); an
empty table converts to the empty JSON object. -/
theorem C3_classification :
    lua_value_to_json heapArr3 0 0 10 (.table 0) =
      .ok (.arr [.str "x", .boolean true, .integer 42]) ∧
    lua_value_to_json heapMixedKeys 0 0 10 (.table 0) =
      .error "Object table keys must be strings (found number)" ∧
    lua_value_to_json heapEmptyTable 0 0 10 (.table 0) = .ok (.obj []) :=
  ⟨rfl, rfl, rfl⟩

theorem tableSet_append_of_not_mem (t : LuaTable) (k v : LuaValue) (hv : v ≠ .nil)
    (hk : tableHasKey t k = false) : tableSet t k v = t ++ [(k, v)] := by
  have hany : List.any t (fun p => decide (p.1 = k)) = false := hk
  cases v
  case nil => exact absurd rfl hv
  all_goals simp [tableSet, hany]

theorem tableSet_nil_of_not_mem (t : LuaTable) (k : LuaValue)
    (hk : tableHasKey t k = false) : tableSet t k .nil = t := by
  simp [tableHasKey] at hk
  simp only [tableSet]
  apply List.filter_eq_self.mpr
  intro p hp
  simpa using hk p.1 p.2 hp

theorem tableHasKey_append (a b : LuaTable) (k : LuaValue) :
    tableHasKey (a ++ b) k = (tableHasKey a k || tableHasKey b k) := by
  simp [tableHasKey, List.any_append]

theorem json_to_lua_nil_iff (v : JSON) (mrd d : Nat) (H : Heap) (lv : LuaValue) (H2 : Heap)
    (h : json_to_lua_value v mrd d H = .ok (lv, H2)) : lv = .nil ↔ v = .null := by
  rw [json_to_lua_value.eq_def] at h
  split at h
  · exact absurd h (by simp)
  · cases v with
    | null => simp at h; simp [h.1]
    | boolean b => simp at h; simp [← h.1]
    | integer i => simp at h; simp [← h.1]
    | real r => simp at h; simp [← h.1]
    | str s => simp at h; simp [← h.1]
    | arr items =>
        have h2 : json_array_to_lua_table items mrd d H = Except.ok (lv, H2) := h
        rw [json_array_to_lua_table.eq_def] at h2
        split at h2
        · exact absurd h2 (by simp)
        · simp at h2
          simp [← h2.1]
    | obj entries =>
        have h2 : json_object_to_lua_table entries mrd d H = Except.ok (lv, H2) := h
        rw [json_object_to_lua_table.eq_def] at h2
        split at h2
        · exact absurd h2 (by simp)
        · simp at h2
          simp [← h2.1]

/-- The integer keys the JSON→Host conversion of an array actually populates:
1-based position `i + 1 + j` appears exactly when element `j` of the
remaining list is not `null` (storing the `nil` image of a `null` leaves the
key absent). -/
def presentKeys (i : Nat) : List JSON → List LuaValue
  | [] => []
  | JSON.null :: rest => presentKeys (i + 1) rest
  | _ :: rest => .intNum (Int.ofNat (i + 1)) :: presentKeys (i + 1) rest

theorem presentKeys_cons_of_ne (i : Nat) (x : JSON) (rest : List JSON) (hx : x ≠ JSON.null) :
    presentKeys i (x :: rest) = .intNum (Int.ofNat (i + 1)) :: presentKeys (i + 1) rest := by
  cases x <;> simp_all [presentKeys]

theorem presentKeys_eq_range (items : List JSON) :
    ∀ i, (∀ x ∈ items, x ≠ JSON.null) →
      presentKeys i items =
        List.map (fun j => LuaValue.intNum (Int.ofNat (i + 1 + j))) (List.range items.length) := by
  induction items with
  | nil => simp [presentKeys]
  | cons x rest ih =>
      intro i hx
      rw [presentKeys_cons_of_ne i x rest (hx x (by simp))]
      rw [ih (i + 1) (fun y hy => hx y (by simp [hy]))]
      simp only [List.length_cons, List.range_succ_eq_map, List.map_cons, List.map_map]
      refine List.cons_eq_cons.mpr ⟨by simp, ?_⟩
      congr 1
      funext j
      simp only [Function.comp_apply]
      congr 2
      omega

theorem json_array_elems_keys :
    ∀ (items : List JSON) (i mrd d : Nat) (H : Heap) (acc : LuaTable) (t : LuaTable) (H2 : Heap),
      json_array_elems items i mrd d H acc = .ok (t, H2) →
      (∀ j : Nat, i < j → tableHasKey acc (.intNum (Int.ofNat j)) = false) →
      ∃ ext, t = acc ++ ext ∧ List.map Prod.fst ext = presentKeys i items := by
  intro items
  induction items with
  | nil =>
      intro i mrd d H acc t H2 h hacc
      rw [json_array_elems.eq_def] at h
      simp at h
      exact ⟨[], by simp [h.1], by simp [presentKeys]⟩
  | cons x rest ih =>
      intro i mrd d H acc t H2 h hacc
      rw [json_array_elems.eq_def] at h
      simp only at h
      split at h
      · exact absurd h (by simp)
      · rename_i lv H3 heq
        by_cases hlv : lv = .nil
        · have hx : x = JSON.null := (json_to_lua_nil_iff x mrd (d + 1) H lv H3 heq).mp hlv
          subst hlv
          rw [tableSet_nil_of_not_mem acc _ (hacc (i + 1) (by omega))] at h
          obtain ⟨ext, het, hkeys⟩ :=
            ih (i + 1) mrd d H3 acc t H2 h (fun j hj => hacc j (by omega))
          subst hx
          exact ⟨ext, het, by simpa [presentKeys] using hkeys⟩
        · have hx : x ≠ JSON.null := fun he => hlv ((json_to_lua_nil_iff x mrd (d + 1) H lv H3 heq).mpr he)
          rw [tableSet_append_of_not_mem acc _ lv hlv (hacc (i + 1) (by omega))] at h
          have hacc2 : ∀ j : Nat, i + 1 < j →
              tableHasKey (acc ++ [(.intNum (Int.ofNat (i + 1)), lv)]) (.intNum (Int.ofNat j)) = false := by
            intro j hj
            rw [tableHasKey_append]
            rw [hacc j (by omega)]
            simp [tableHasKey]
            omega
          obtain ⟨ext, het, hkeys⟩ := ih (i + 1) mrd d H3 _ t H2 h hacc2
          refine ⟨(.intNum (Int.ofNat (i + 1)), lv) :: ext, by simp [het], ?_⟩
          rw [presentKeys_cons_of_ne i x rest hx]
          simp [hkeys]

/-- C2 counterexample: converting the JSON array `[null]` materializes no
entry at index 1 -- storing `nil` leaves a Lua table key absent -- so the
resulting table is empty rather than length-preserving. -/
theorem C2_counterexample :
    json_to_lua_value (.arr [.null]) 0 0 [] = .ok (.table 0, [([] : LuaTable)]) ∧
    tableHasKey ([] : LuaTable) (.intNum 1) = false := by
  constructor
  · simp [json_to_lua_value, json_array_to_lua_table, json_array_elems, tableSet]
  · rfl

/-- C2 (amended): JSON→Host conversion of an array of length N produces a
fresh table whose populated keys are exactly the 1-based integer positions
of its non-Null elements, in order; in particular when no element is Null
the keys are exactly 1..N.  Null elements are omitted (a Lua table cannot
hold an explicit nil entry), so they do not preserve the array length. -/
theorem C2_array_conversion :
    ∀ (items : List JSON) (mrd : Nat) (H : Heap) (lv : LuaValue) (H2 : Heap),
      json_to_lua_value (JSON.arr items) mrd 0 H = .ok (lv, H2) →
      ∃ (H3 : Heap) (t : LuaTable), H2 = H3 ++ [t] ∧ lv = .table H3.length ∧
        List.map Prod.fst t = presentKeys 0 items ∧
        ((∀ x ∈ items, x ≠ JSON.null) →
          List.map Prod.fst t =
            List.map (fun j => LuaValue.intNum (Int.ofNat (1 + j))) (List.range items.length)) := by
  intro items mrd H lv H2 h
  have h2 : json_array_to_lua_table items mrd 0 H = .ok (lv, H2) := by
    rw [json_to_lua_value.eq_def] at h
    split at h
    · rename_i hc
      exact absurd hc (by omega)
    · exact h
  rw [json_array_to_lua_table.eq_def] at h2
  split at h2
  · exact absurd h2 (by simp)
  · rename_i t H3 heq
    simp at h2
    obtain ⟨ext, het, hkeys⟩ :=
      json_array_elems_keys items 0 mrd 0 H [] t H3 heq (by simp [tableHasKey])
    simp at het
    subst het
    refine ⟨H3, t, h2.2.symm, by simp [← h2.1], hkeys, ?_⟩
    intro hnn
    rw [hkeys, presentKeys_eq_range items 0 hnn]

/-- Witness for C2: the amended theorem applied to `[5, "a"]`. -/
theorem C2_witness :
    json_to_lua_value (.arr [.integer 5, .str "a"]) 0 0 [] =
      .ok (.table 0, [[(.intNum 1, .intNum 5), (.intNum 2, .str "a")]]) ∧
    ∃ (H3 : Heap) (t : LuaTable),
      ([[(.intNum 1, .intNum 5), (.intNum 2, .str "a")]] : Heap) = H3 ++ [t] ∧
      LuaValue.table 0 = .table H3.length ∧
      List.map Prod.fst t = presentKeys 0 [.integer 5, .str "a"] ∧
      ((∀ x ∈ [JSON.integer 5, JSON.str "a"], x ≠ JSON.null) →
        List.map Prod.fst t =
          List.map (fun j => LuaValue.intNum (Int.ofNat (1 + j)))
            (List.range ([JSON.integer 5, JSON.str "a"].length))) := by
  have hconv : json_to_lua_value (.arr [.integer 5, .str "a"]) 0 0 [] =
      .ok (.table 0, [[(.intNum 1, .intNum 5), (.intNum 2, .str "a")]]) := by
    simp [json_to_lua_value, json_array_to_lua_table, json_array_elems, tableSet]
  exact ⟨hconv, C2_array_conversion [.integer 5, .str "a"] 0 [] (.table 0) _ hconv⟩

/-- Host table whose member `akey` holds a function value. -/
def heapFnValue : Heap := [[(.str "akey", .func)]]

/-- The closed family of messages a Host→JSON conversion can fail with: each
is a fixed string, parameterized at most by the depth counter or by the
offending value's kind -- never by the key/index chain leading to the
failing value.  Membership in this family is the precise sense in which a
Host→JSON error carries no path annotation: the same message family arises
whatever the keys on the way down, and child errors propagate verbatim. -/
def hostConvErrMsg (e : String) : Prop :=
  e = "model artifact: conversion fuel exhausted" ∨
  e = "model artifact: dangling table reference" ∨
  (∃ d : Nat, e = "Maximum recursion depth exceeded (depth=" ++ toString d ++ ")") ∨
  e = "Cycle detected in Lua table" ∨
  e = "Array index too large (integer overflow risk)" ∨
  e = "Array length exceeds max_array_length" ∨
  e = "Non-finite numbers (NaN/Inf) are not valid JSON numbers" ∨
  (∃ k : LuaValue, e = "Object table keys must be strings (found " ++ luaTypeName k ++ ")") ∨
  (∃ w : LuaValue, e = unsupportedMsg w)

theorem conv_array_items_err (convert : LuaValue → Except String JSON)
    (hc : ∀ w e, convert w = .error e → hostConvErrMsg e) :
    ∀ (rem i : Nat) (t : LuaTable) (e : String),
      conv_array_items convert t i rem = .error e → hostConvErrMsg e := by
  intro rem
  induction rem with
  | zero =>
      intro i t e h
      simp [conv_array_items] at h
  | succ r ih =>
      intro i t e h
      rw [conv_array_items] at h
      split at h
      · rename_i e0 heq
        simp at h
        subst h
        split at heq
        · exact absurd heq (by simp)
        · exact hc _ e0 heq
      · split at h
        · rename_i e0 heq2
          simp at h
          subst h
          exact ih (i + 1) t e0 heq2
        · exact absurd h (by simp)

theorem conv_object_entries_err (convert : LuaValue → Except String JSON)
    (hc : ∀ w e, convert w = .error e → hostConvErrMsg e) :
    ∀ (t : LuaTable) (acc : List (String × JSON)) (e : String),
      conv_object_entries convert t acc = .error e → hostConvErrMsg e := by
  intro t
  induction t with
  | nil =>
      intro acc e h
      simp [conv_object_entries] at h
  | cons p rest ih =>
      intro acc e h
      obtain ⟨k, v⟩ := p
      cases k
      case str ks =>
        rw [conv_object_entries] at h
        split at h
        · rename_i e0 heq
          simp at h
          subst h
          exact hc v e0 heq
        · exact ih _ e h
      all_goals
        (rw [conv_object_entries] at h) <;>
          first
            | (simp at h
               subst h
               exact Or.inr (Or.inr (Or.inr (Or.inr (Or.inr (Or.inr (Or.inr (Or.inl ⟨_, rfl⟩))))))))
            | (intro ks hks
               exact absurd hks (by simp))

theorem lua_value_to_json_abs_err :
    ∀ (fuel : Nat) (H : Heap) (mal mrd : Nat) (v : LuaValue) (seen : List Nat) (depth : Nat)
      (e : String),
      lua_value_to_json_abs H mal mrd fuel v seen depth = .error e → hostConvErrMsg e := by
  intro fuel
  induction fuel with
  | zero =>
      intro H mal mrd v seen depth e h
      simp [lua_value_to_json_abs] at h
      exact Or.inl h.symm
  | succ f ih =>
      intro H mal mrd v seen depth e h
      cases v with
      | nil =>
          rw [lua_value_to_json_abs] at h
          split at h
          · simp at h
            exact Or.inr (Or.inr (Or.inl ⟨depth, h.symm⟩))
          · simp at h
      | boolean b =>
          rw [lua_value_to_json_abs] at h
          split at h
          · simp at h
            exact Or.inr (Or.inr (Or.inl ⟨depth, h.symm⟩))
          · simp at h
      | intNum i =>
          rw [lua_value_to_json_abs] at h
          split at h
          · simp at h
            exact Or.inr (Or.inr (Or.inl ⟨depth, h.symm⟩))
          · simp at h
      | str s =>
          rw [lua_value_to_json_abs] at h
          split at h
          · simp at h
            exact Or.inr (Or.inr (Or.inl ⟨depth, h.symm⟩))
          · simp at h
      | floatNum fl =>
          rw [lua_value_to_json_abs] at h
          split at h
          · simp at h
            exact Or.inr (Or.inr (Or.inl ⟨depth, h.symm⟩))
          · split at h
            · exact absurd h (by simp)
            · simp at h
              exact Or.inr (Or.inr (Or.inr (Or.inr (Or.inr (Or.inr (Or.inl h.symm))))))
      | table r =>
          rw [lua_value_to_json_abs] at h
          split at h
          · simp at h
            exact Or.inr (Or.inr (Or.inl ⟨depth, h.symm⟩))
          · split at h
            · simp at h
              exact Or.inr (Or.inr (Or.inr (Or.inl h.symm)))
            · split at h
              · simp at h
                exact Or.inr (Or.inl h.symm)
              · rename_i t heapget
                dsimp only at h
                split at h
                · split at h
                  · simp at h
                    exact Or.inr (Or.inr (Or.inr (Or.inr (Or.inl h.symm))))
                  · split at h
                    · simp at h
                      exact Or.inr (Or.inr (Or.inr (Or.inr (Or.inr (Or.inl h.symm)))))
                    · split at h
                      · rename_i e2 hconv
                        simp at h
                        subst h
                        exact conv_array_items_err _
                          (fun w e3 hw => ih H mal mrd w (r :: seen) (depth + 1) e3 hw)
                          _ _ _ e2 hconv
                      · exact absurd h (by simp)
                · split at h
                  · rename_i e2 hconv
                    simp at h
                    subst h
                    exact conv_object_entries_err _
                      (fun w e3 hw => ih H mal mrd w (r :: seen) (depth + 1) e3 hw)
                      _ _ e2 hconv
                  · exact absurd h (by simp)
      | func =>
          (rw [lua_value_to_json_abs] at h) <;>
            first
              | (split at h
                 · simp at h
                   exact Or.inr (Or.inr (Or.inl ⟨depth, h.symm⟩))
                 · simp at h
                   exact Or.inr (Or.inr (Or.inr (Or.inr (Or.inr (Or.inr (Or.inr (Or.inr
                     ⟨LuaValue.func, h.symm⟩))))))))
              | (intros
                 simp_all)
      | userdata =>
          (rw [lua_value_to_json_abs] at h) <;>
            first
              | (split at h
                 · simp at h
                   exact Or.inr (Or.inr (Or.inl ⟨depth, h.symm⟩))
                 · simp at h
                   exact Or.inr (Or.inr (Or.inr (Or.inr (Or.inr (Or.inr (Or.inr (Or.inr
                     ⟨LuaValue.userdata, h.symm⟩))))))))
              | (intros
                 simp_all)
      | lightuserdata =>
          (rw [lua_value_to_json_abs] at h) <;>
            first
              | (split at h
                 · simp at h
                   exact Or.inr (Or.inr (Or.inl ⟨depth, h.symm⟩))
                 · simp at h
                   exact Or.inr (Or.inr (Or.inr (Or.inr (Or.inr (Or.inr (Or.inr (Or.inr
                     ⟨LuaValue.lightuserdata, h.symm⟩))))))))
              | (intros
                 simp_all)
      | thread =>
          (rw [lua_value_to_json_abs] at h) <;>
            first
              | (split at h
                 · simp at h
                   exact Or.inr (Or.inr (Or.inl ⟨depth, h.symm⟩))
                 · simp at h
                   exact Or.inr (Or.inr (Or.inr (Or.inr (Or.inr (Or.inr (Or.inr (Or.inr
                     ⟨LuaValue.thread, h.symm⟩))))))))
              | (intros
                 simp_all)

/-- C6 counterexample: the UnsupportedType error raised one level below the
top of a Host→JSON conversion (member `akey` holding a function) carries no
path annotation: the message is the bare Unsupported-type text and does not
mention the key. -/
theorem C6_counterexample :
    lua_value_to_json heapFnValue 0 0 10 (.table 0) =
      .error "Unsupported Lua type for JSON conversion: function (functions cannot be converted to JSON)" ∧
    strContainsSub
      "Unsupported Lua type for JSON conversion: function (functions cannot be converted to JSON)"
      "akey" = false :=
  ⟨rfl, by decide⟩

/-- C6 (amended): ConversionErrors raised below the top level of a JSON→Host
conversion carry a path annotation (object member errors are prefixed with
the property name, array element errors with the index); Host→JSON
conversion errors never carry one: every error the converter can produce
belongs to the closed family `hostConvErrMsg` of fixed messages that do not
mention the key/index chain, and in particular the nested UnsupportedType
failure surfaces as the bare message. -/
theorem C6_error_paths :
    (∀ (items : List JSON) (i mrd d : Nat) (H : Heap) (acc : LuaTable) (e : String),
        json_array_elems items i mrd d H acc = .error e →
        ∃ (j : Nat) (e2 : String),
          e = "Error converting JSON array at index " ++ toString j ++ ": " ++ e2) ∧
    (∀ (entries : List (String × JSON)) (mrd d : Nat) (H : Heap) (acc : LuaTable) (e : String),
        json_object_entries entries mrd d H acc = .error e →
        ∃ (k e2 : String),
          e = "Error converting JSON object property " ++ squo ++ k ++ squo ++ ": " ++ e2) ∧
    (∀ (W : Heap) (mal mrd fuel : Nat) (w : LuaValue) (seen : List Nat) (depth : Nat)
        (e : String),
        lua_value_to_json_abs W mal mrd fuel w seen depth = .error e → hostConvErrMsg e) ∧
    lua_value_to_json heapFnValue 0 0 10 (.table 0) =
      .error "Unsupported Lua type for JSON conversion: function (functions cannot be converted to JSON)" := by
  refine ⟨?_, ?_,
    fun W mal mrd fuel w seen depth e h =>
      lua_value_to_json_abs_err fuel W mal mrd w seen depth e h, rfl⟩
  · intro items
    induction items with
    | nil =>
        intro i mrd d H acc e h
        rw [json_array_elems.eq_def] at h
        exact absurd h (by simp)
    | cons x rest ih =>
        intro i mrd d H acc e h
        rw [json_array_elems.eq_def] at h
        simp only at h
        split at h
        · rename_i e0 heq
          simp at h
          exact ⟨i, e0, h.symm⟩
        · exact ih (i + 1) mrd d _ _ e h
  · intro entries
    induction entries with
    | nil =>
        intro mrd d H acc e h
        rw [json_object_entries.eq_def] at h
        exact absurd h (by simp)
    | cons p rest ih =>
        intro mrd d H acc e h
        rw [json_object_entries.eq_def] at h
        simp only at h
        split at h
        · rename_i e0 heq
          simp at h
          exact ⟨p.1, e0, h.symm⟩
        · exact ih mrd d _ _ e h

/-- Witness for C6: the annotation shapes applied to a concrete failing
array element and a concrete failing object member, and the pathless-message
classification applied to a concrete Host→JSON failure. -/
theorem C6_witness :
    (∃ (j : Nat) (e2 : String),
      "Error converting JSON array at index " ++ toString (0 : Nat) ++ ": " ++
        "Maximum recursion depth exceeded in JSON conversion (depth=2)" =
      "Error converting JSON array at index " ++ toString j ++ ": " ++ e2) ∧
    (∃ (k e2 : String),
      "Error converting JSON object property " ++ squo ++ "akey" ++ squo ++ ": " ++
        "Maximum recursion depth exceeded in JSON conversion (depth=2)" =
      "Error converting JSON object property " ++ squo ++ k ++ squo ++ ": " ++ e2) ∧
    hostConvErrMsg
      "Unsupported Lua type for JSON conversion: function (functions cannot be converted to JSON)" := by
  refine ⟨?_, ?_, C6_error_paths.2.2.1 heapFnValue 0 0 10 (.table 0) [] 0 _ rfl⟩
  · exact C6_error_paths.1 [.arr []] 0 1 1 [] []
      ("Error converting JSON array at index " ++ toString (0 : Nat) ++ ": " ++
        "Maximum recursion depth exceeded in JSON conversion (depth=2)")
      (by simp [json_array_elems, json_to_lua_value]; rfl)
  · exact C6_error_paths.2.1 [("akey", .arr [])] 1 1 [] []
      ("Error converting JSON object property " ++ squo ++ "akey" ++ squo ++ ": " ++
        "Maximum recursion depth exceeded in JSON conversion (depth=2)")
      (by simp [json_object_entries, json_to_lua_value]; rfl)

/-- Behavior of the depth-guard fold across the events of one value: with the
counter at `d`, a value nesting within bounds is transparent, and one nesting
past the limit aborts with the `DepthExceeded` message. -/
def GuardOk (maxd : Nat) (v : JSON) : Prop :=
  ∀ (d : Nat) (rest : List (JPhase × JType)),
    (d + cdepth v ≤ maxd →
      run_depth_guard maxd (nodeEvents v ++ rest) d = run_depth_guard maxd rest d) ∧
    (d ≤ maxd → maxd < d + cdepth v →
      run_depth_guard maxd (nodeEvents v ++ rest) d = .error "JSON maximum nesting depth exceeded")

/-- `GuardOk` lifted across an array's element events. -/
def GuardOkArr (maxd : Nat) (items : List JSON) : Prop :=
  ∀ (d : Nat) (rest : List (JPhase × JType)),
    (d + arrCdepth items ≤ maxd →
      run_depth_guard maxd (arrEvents items ++ rest) d = run_depth_guard maxd rest d) ∧
    (d ≤ maxd → maxd < d + arrCdepth items →
      run_depth_guard maxd (arrEvents items ++ rest) d = .error "JSON maximum nesting depth exceeded")

/-- `GuardOk` lifted across an object's member events. -/
def GuardOkObj (maxd : Nat) (entries : List (String × JSON)) : Prop :=
  ∀ (d : Nat) (rest : List (JPhase × JType)),
    (d + objCdepth entries ≤ maxd →
      run_depth_guard maxd (objEvents entries ++ rest) d = run_depth_guard maxd rest d) ∧
    (d ≤ maxd → maxd < d + objCdepth entries →
      run_depth_guard maxd (objEvents entries ++ rest) d = .error "JSON maximum nesting depth exceeded")

theorem run_guard_pre_arr (maxd d : Nat) (rest : List (JPhase × JType)) :
    run_depth_guard maxd ((JPhase.pre, JType.array) :: rest) d =
      if d + 1 > maxd then .error "JSON maximum nesting depth exceeded"
      else run_depth_guard maxd rest (d + 1) := by
  simp [run_depth_guard]

theorem run_guard_pre_obj (maxd d : Nat) (rest : List (JPhase × JType)) :
    run_depth_guard maxd ((JPhase.pre, JType.object) :: rest) d =
      if d + 1 > maxd then .error "JSON maximum nesting depth exceeded"
      else run_depth_guard maxd rest (d + 1) := by
  simp [run_depth_guard]

theorem run_guard_post_arr (maxd d : Nat) (rest : List (JPhase × JType)) :
    run_depth_guard maxd ((JPhase.post, JType.array) :: rest) d =
      run_depth_guard maxd rest (if d > 0 then d - 1 else d) := by
  simp [run_depth_guard]

theorem run_guard_post_obj (maxd d : Nat) (rest : List (JPhase × JType)) :
    run_depth_guard maxd ((JPhase.post, JType.object) :: rest) d =
      run_depth_guard maxd rest (if d > 0 then d - 1 else d) := by
  simp [run_depth_guard]

theorem guard_all (maxd : Nat) : ∀ n : Nat,
    (∀ v : JSON, sizeOf v ≤ n → GuardOk maxd v) ∧
    (∀ items : List JSON, sizeOf items ≤ n → GuardOkArr maxd items) ∧
    (∀ entries : List (String × JSON), sizeOf entries ≤ n → GuardOkObj maxd entries) := by
  intro n
  induction n with
  | zero =>
      refine ⟨fun v h => ?_, fun items h => ?_, fun entries h => ?_⟩
      · cases v <;> simp at h
      · cases items <;> simp at h
      · cases entries <;> simp at h
  | succ n ih =>
      refine ⟨fun v h => ?_, fun items h => ?_, fun entries h => ?_⟩
      · cases v with
        | arr items =>
            intro d rest
            have harr := ih.2.1 items (by simp at h; omega)
            rw [cdepth.eq_def]
            simp only [nodeEvents, List.cons_append]
            rw [run_guard_pre_arr, List.append_assoc]
            constructor
            · intro hle
              rw [if_neg (by omega)]
              rw [(harr (d + 1) ([(JPhase.post, JType.array)] ++ rest)).1 (by omega)]
              rw [List.singleton_append, run_guard_post_arr]
              rw [if_pos (by omega)]
              simp
            · intro hd hgt
              by_cases h1 : d + 1 > maxd
              · rw [if_pos h1]
              · rw [if_neg h1]
                exact (harr (d + 1) _).2 (by omega) (by omega)
        | obj entries =>
            intro d rest
            have hobj := ih.2.2 entries (by simp at h; omega)
            rw [cdepth.eq_def]
            simp only [nodeEvents, List.cons_append]
            rw [run_guard_pre_obj, List.append_assoc]
            constructor
            · intro hle
              rw [if_neg (by omega)]
              rw [(hobj (d + 1) ([(JPhase.post, JType.object)] ++ rest)).1 (by omega)]
              rw [List.singleton_append, run_guard_post_obj]
              rw [if_pos (by omega)]
              simp
            · intro hd hgt
              by_cases h1 : d + 1 > maxd
              · rw [if_pos h1]
              · rw [if_neg h1]
                exact (hobj (d + 1) _).2 (by omega) (by omega)
        | null =>
            intro d rest
            refine ⟨fun _ => ?_, fun hd hgt => ?_⟩
            · simp [nodeEvents, run_depth_guard, jtypeOf]
            · rw [cdepth.eq_def] at hgt
              simp at hgt
              omega
        | boolean b =>
            intro d rest
            refine ⟨fun _ => ?_, fun hd hgt => ?_⟩
            · simp [nodeEvents, run_depth_guard, jtypeOf]
            · rw [cdepth.eq_def] at hgt
              simp at hgt
              omega
        | integer i =>
            intro d rest
            refine ⟨fun _ => ?_, fun hd hgt => ?_⟩
            · simp [nodeEvents, run_depth_guard, jtypeOf]
            · rw [cdepth.eq_def] at hgt
              simp at hgt
              omega
        | real r =>
            intro d rest
            refine ⟨fun _ => ?_, fun hd hgt => ?_⟩
            · simp [nodeEvents, run_depth_guard, jtypeOf]
            · rw [cdepth.eq_def] at hgt
              simp at hgt
              omega
        | str s =>
            intro d rest
            refine ⟨fun _ => ?_, fun hd hgt => ?_⟩
            · simp [nodeEvents, run_depth_guard, jtypeOf]
            · rw [cdepth.eq_def] at hgt
              simp at hgt
              omega
      · cases items with
        | nil =>
            intro d rest
            refine ⟨fun _ => ?_, fun hd hgt => ?_⟩
            · simp [arrEvents]
            · rw [arrCdepth.eq_def] at hgt
              simp at hgt
              omega
        | cons x rest2 =>
            intro d rest
            have hx := ih.1 x (by simp at h; omega)
            have hr := ih.2.1 rest2 (by simp at h; omega)
            rw [arrCdepth.eq_def]
            simp only [arrEvents]
            rw [List.append_assoc]
            constructor
            · intro hle
              rw [(hx d _).1 (by omega)]
              exact (hr d rest).1 (by omega)
            · intro hd hgt
              by_cases h1 : maxd < d + cdepth x
              · exact (hx d _).2 hd h1
              · rw [(hx d _).1 (by omega)]
                exact (hr d rest).2 hd (by omega)
      · cases entries with
        | nil =>
            intro d rest
            refine ⟨fun _ => ?_, fun hd hgt => ?_⟩
            · simp [objEvents]
            · rw [objCdepth.eq_def] at hgt
              simp at hgt
              omega
        | cons p rest2 =>
            obtain ⟨k, val⟩ := p
            intro d rest
            have hx := ih.1 val (by simp at h; omega)
            have hr := ih.2.2 rest2 (by simp at h; omega)
            rw [objCdepth.eq_def]
            simp only [objEvents]
            rw [List.append_assoc]
            constructor
            · intro hle
              rw [(hx d _).1 (by omega)]
              exact (hr d rest).1 (by omega)
            · intro hd hgt
              by_cases h1 : maxd < d + cdepth val
              · exact (hx d _).2 hd h1
              · rw [(hx d _).1 (by omega)]
                exact (hr d rest).2 hd (by omega)

/-- C8: for a well-formed JSON text parsing to `v` with container nesting
depth `cdepth v`, the depth-guarded parse succeeds exactly when `max_depth`
is 0 (unlimited, delegated to the external parser) or at least `cdepth v`,
and fails with the depth-exceeded error when `0 < max_depth < cdepth v`. -/
theorem C8_depth_enforcement :
    ∀ (parseF : String → Except String JSON) (input : String) (v : JSON) (maxd : Nat),
      parseF input = .ok v →
      ((maxd = 0 ∨ cdepth v ≤ maxd) →
        parse_json_with_depth_limit parseF input maxd = .ok v) ∧
      (0 < maxd → maxd < cdepth v →
        parse_json_with_depth_limit parseF input maxd =
          .error "JSON maximum nesting depth exceeded") := by
  intro parseF input v maxd hp
  have hg : GuardOk maxd v := ((guard_all maxd (sizeOf v)).1 v (le_refl _))
  constructor
  · intro hle
    rcases hle with h0 | hle
    · subst h0
      simp [parse_json_with_depth_limit, hp]
    · rw [parse_json_with_depth_limit]
      by_cases h0 : maxd = 0
      · simp [h0, hp]
      · rw [if_neg h0, hp]
        have := (hg 0 []).1 (by omega)
        simp at this
        simp [this, run_depth_guard]
  · intro hpos hgt
    rw [parse_json_with_depth_limit]
    rw [if_neg (by omega), hp]
    have := (hg 0 []).2 (by omega) (by omega)
    simp at this
    simp [this]

/-- Witness for C8: the theorem applied to a depth-2 text at limits 0, 2,
and 1. -/
theorem C8_witness :
    parse_json_with_depth_limit (fun _ => .ok (.arr [.arr []])) "[[]]" 0 = .ok (.arr [.arr []]) ∧
    parse_json_with_depth_limit (fun _ => .ok (.arr [.arr []])) "[[]]" 2 = .ok (.arr [.arr []]) ∧
    parse_json_with_depth_limit (fun _ => .ok (.arr [.arr []])) "[[]]" 1 =
      .error "JSON maximum nesting depth exceeded" := by
  have hc : cdepth (JSON.arr [JSON.arr []]) = 2 := by
    simp [cdepth, arrCdepth]
  refine ⟨?_, ?_, ?_⟩
  · exact (C8_depth_enforcement (fun _ => .ok (.arr [.arr []])) "[[]]" (.arr [.arr []]) 0 rfl).1
      (Or.inl rfl)
  · exact (C8_depth_enforcement (fun _ => .ok (.arr [.arr []])) "[[]]" (.arr [.arr []]) 2 rfl).1
      (Or.inr (by rw [hc]))
  · exact (C8_depth_enforcement (fun _ => .ok (.arr [.arr []])) "[[]]" (.arr [.arr []]) 1 rfl).2
      (by omega) (by rw [hc]; omega)

/-- C10: the first result of both detailed validation operations equals the
boolean `valid` field extracted from the evaluator's outcome report, and
the extraction yields true only when the report is an object whose `valid`
member is the boolean true -- a report lacking a boolean `valid` never
yields true. -/
theorem C10_valid_extraction :
    (∀ (T : Type) (standardF : T → JSON → JSON) (cs : CompiledSchema T) (H : Heap)
        (fuel inst : Nat) (b : Bool) (r : LuaValue × Heap),
        compiled_schema_validate_detailed standardF cs H fuel inst = .ok (b, r) →
        ∃ instanceJSON,
          lua_value_to_json H cs.max_array_length cs.max_recursion_depth fuel (.table inst) =
            .ok instanceJSON ∧
          b = extract_valid (standardF cs.schema_template instanceJSON)) ∧
    (∀ (T : Type) (parseF : String → Except String JSON) (standardF : T → JSON → JSON)
        (cs : CompiledSchema T) (H : Heap) (txt : String) (b : Bool) (r : LuaValue × Heap),
        compiled_schema_validate_json_detailed parseF standardF cs H txt = .ok (b, r) →
        ∃ instanceJSON,
          parse_json_with_depth_limit parseF txt cs.max_depth = .ok instanceJSON ∧
          b = extract_valid (standardF cs.schema_template instanceJSON)) ∧
    (∀ report : JSON, extract_valid report = true →
      ∃ es, report = .obj es ∧
        List.find? (fun p => decide (p.1 = "valid")) es = some ("valid", .boolean true)) := by
  refine ⟨?_, ?_, ?_⟩
  · intro T standardF cs H fuel inst b r h
    rw [compiled_schema_validate_detailed] at h
    split at h
    · exact absurd h (by simp)
    · rename_i ij heq
      dsimp only at h
      split at h
      · exact absurd h (by simp)
      · simp at h
        exact ⟨ij, heq, h.1.symm⟩
  · intro T parseF standardF cs H txt b r h
    rw [compiled_schema_validate_json_detailed] at h
    split at h
    · exact absurd h (by simp)
    · rename_i ij heq
      dsimp only at h
      split at h
      · exact absurd h (by simp)
      · simp at h
        exact ⟨ij, heq, h.1.symm⟩
  · intro report h
    cases report with
    | obj es =>
        have h2 : (match List.find? (fun p => decide (p.1 = "valid")) es with
          | some (_, JSON.boolean b) => b
          | _ => false) = true := h
        split at h2
        · rename_i k b2 hfind
          have hk := List.find?_some hfind
          simp at hk
          subst h2
          subst hk
          exact ⟨es, rfl, hfind⟩
        · exact absurd h2 (by simp)
    | null => simp [extract_valid] at h
    | boolean b => simp [extract_valid] at h
    | integer i => simp [extract_valid] at h
    | real r => simp [extract_valid] at h
    | str s => simp [extract_valid] at h
    | arr items => simp [extract_valid] at h

/-- Witness for C10: both extraction facts applied to a concrete run whose
evaluator reports `valid = true` on an empty table instance. -/
theorem C10_witness :
    compiled_schema_validate_detailed
        (fun (_ : Unit) (_ : JSON) => JSON.obj [("valid", JSON.boolean true)])
        ⟨(), 0, 0, 0, "Fast", "auto"⟩ [([] : LuaTable)] 10 0 =
      .ok (true, (.table 1, [([] : LuaTable), [(.str "valid", .boolean true)]])) ∧
    (∃ instanceJSON,
        lua_value_to_json [([] : LuaTable)] 0 0 10 (.table 0) = .ok instanceJSON ∧
        true = extract_valid
          ((fun (_ : Unit) (_ : JSON) => JSON.obj [("valid", JSON.boolean true)]) () instanceJSON)) ∧
    (∃ es, JSON.obj [("valid", JSON.boolean true)] = .obj es ∧
        List.find? (fun p => decide (p.1 = "valid")) es = some ("valid", .boolean true)) := by
  have hrun : compiled_schema_validate_detailed
      (fun (_ : Unit) (_ : JSON) => JSON.obj [("valid", JSON.boolean true)])
      ⟨(), 0, 0, 0, "Fast", "auto"⟩ [([] : LuaTable)] 10 0 =
      .ok (true, (.table 1, [([] : LuaTable), [(.str "valid", .boolean true)]])) := by
    rw [compiled_schema_validate_detailed]
    have h1 : lua_value_to_json [([] : LuaTable)] 0 0 10 (.table 0) = .ok (.obj []) := rfl
    rw [show (⟨(), 0, 0, 0, "Fast", "auto"⟩ : CompiledSchema Unit).max_array_length = 0 from rfl,
        show (⟨(), 0, 0, 0, "Fast", "auto"⟩ : CompiledSchema Unit).max_recursion_depth = 0 from rfl]
    rw [h1]
    dsimp only
    rw [show extract_valid (JSON.obj [("valid", JSON.boolean true)]) = true from rfl]
    have h2 : json_to_lua_value (JSON.obj [("valid", JSON.boolean true)]) 0 0 [([] : LuaTable)] =
        .ok (.table 1, [([] : LuaTable), [(.str "valid", .boolean true)]]) := by
      simp [json_to_lua_value, json_object_to_lua_table, json_object_entries, tableSet]
    rw [h2]
  refine ⟨hrun, ?_, C10_valid_extraction.2.2 (JSON.obj [("valid", JSON.boolean true)]) rfl⟩
  exact C10_valid_extraction.1 Unit
    (fun (_ : Unit) (_ : JSON) => JSON.obj [("valid", JSON.boolean true)])
    ⟨(), 0, 0, 0, "Fast", "auto"⟩ [([] : LuaTable)] 10 0 true
    (.table 1, [([] : LuaTable), [(.str "valid", .boolean true)]]) hrun

mutual

/-- Round-trip safety of a JSON value: reals are finite, object keys are
unique (as `sourcemeta` objects guarantee), arrays are non-empty and free of
`null` elements, and object member values are never `null` -- the conditions
under which a value survives the trip through a Lua table (a table cannot
hold a nil entry, and an empty table classifies as an object), together with
the array-length limit `mal`. -/
def rtOk (mal : Nat) (v : JSON) : Bool :=
  match v with
  | .null => true
  | .boolean _ => true
  | .integer _ => true
  | .real r => r.finite
  | .str _ => true
  | .arr items =>
      !items.isEmpty && (decide (mal = 0) || decide (items.length ≤ mal)) &&
        decide (items.length < USIZE_MAX) && rtOkArr mal items
  | .obj entries => decide ((entries.map Prod.fst).Nodup) && rtOkObj mal entries
termination_by (sizeOf v, 1)

/-- `rtOk` on array elements, also excluding `null` elements. -/
def rtOkArr (mal : Nat) (items : List JSON) : Bool :=
  match items with
  | [] => true
  | JSON.null :: _ => false
  | x :: rest => rtOk mal x && rtOkArr mal rest
termination_by (sizeOf items, 0)

/-- `rtOk` on object members, also excluding `null` member values. -/
def rtOkObj (mal : Nat) (entries : List (String × JSON)) : Bool :=
  match entries with
  | [] => true
  | (_, JSON.null) :: _ => false
  | (_, v) :: rest => rtOk mal v && rtOkObj mal rest
termination_by (sizeOf entries, 0)

end

/-- The round-trip composite of the spec: convert a JSON value to a host
value in an empty heap (as a fresh conversion does), then convert the result
back under the same limits. -/
def roundTrip (max_array_length max_recursion_depth fuel : Nat) (v : JSON) :
    Except String JSON :=
  match json_to_lua_value v max_recursion_depth 0 [] with
  | .error e => .error e
  | .ok (lv, H) => lua_value_to_json H max_array_length max_recursion_depth fuel lv

theorem rtOkArr_cons (mal : Nat) (x : JSON) (rest : List JSON)
    (h : rtOkArr mal (x :: rest) = true) :
    x ≠ JSON.null ∧ rtOk mal x = true ∧ rtOkArr mal rest = true := by
  cases x <;> simp_all [rtOkArr]

theorem rtOkObj_cons (mal : Nat) (k : String) (x : JSON) (rest : List (String × JSON))
    (h : rtOkObj mal ((k, x) :: rest) = true) :
    x ≠ JSON.null ∧ rtOk mal x = true ∧ rtOkObj mal rest = true := by
  cases x <;> simp_all [rtOkObj]

theorem objAssign_append_of_not_mem (es : List (String × JSON)) (k : String) (v : JSON)
    (hk : List.any es (fun p => decide (p.1 = k)) = false) :
    objAssign es k v = es ++ [(k, v)] := by
  simp only [objAssign]
  rw [if_neg]
  simp at hk ⊢
  intro x hx
  exact (hk k x hx) rfl

theorem heap_get_at_len (A : Heap) (t : LuaTable) (B : Heap) :
    ((A ++ [t]) ++ B)[A.length]? = some t := by
  rw [List.append_assoc]
  rw [List.getElem?_append_right (le_refl A.length)]
  simp

theorem classify_fold_arr :
    ∀ (ps : LuaTable) (i : Nat) (b : Bool) (m c : Nat),
      ps.map Prod.fst =
        (List.range ps.length).map (fun j => LuaValue.intNum (Int.ofNat (i + 1 + j))) →
      List.foldl classifyStep (b, m, c) ps =
        (b, if ps.length = 0 then m else max m (i + ps.length), c + ps.length) := by
  intro ps
  induction ps with
  | nil => intro i b m c _; simp
  | cons p rest ih =>
      intro i b m c hk
      simp only [List.map_cons, List.length_cons, List.range_succ_eq_map, List.map_map] at hk
      obtain ⟨hp, hrest⟩ := List.cons_eq_cons.mp hk
      have hrest2 : rest.map Prod.fst =
          (List.range rest.length).map (fun j => LuaValue.intNum (Int.ofNat ((i + 1) + 1 + j))) := by
        rw [hrest]
        apply List.map_congr_left
        intro a _
        simp only [Function.comp_apply]
        congr 2
        omega
      simp only [List.foldl_cons]
      obtain ⟨pk, pv⟩ := p
      simp only at hp
      subst hp
      have hstep : classifyStep (b, m, c) (LuaValue.intNum (Int.ofNat (i + 1 + 0)), pv) =
          (b, max m (i + 1), c + 1) := by
        simp only [classifyStep, keyArrayIndex]
        rw [if_neg (by simp [Int.ofNat_eq_natCast])]
        simp
      rw [hstep, ih (i + 1) b (max m (i + 1)) (c + 1) hrest2]
      simp only [List.length_cons]
      have hne : ¬ (rest.length + 1 = 0) := by omega
      rw [if_neg hne]
      by_cases h0 : rest.length = 0
      · rw [if_pos h0]
        simp only [Prod.mk.injEq, true_and]
        constructor <;> omega
      · rw [if_neg h0]
        simp only [Prod.mk.injEq, true_and]
        constructor <;> omega

theorem classify_count_str :
    ∀ (ps : LuaTable) (b : Bool) (m c : Nat),
      (∀ p ∈ ps, ∃ s, p.1 = LuaValue.str s) →
      (List.foldl classifyStep (b, m, c) ps).2.2 = c := by
  intro ps
  induction ps with
  | nil => intro b m c _; rfl
  | cons p rest ih =>
      intro b m c hk
      obtain ⟨s, hs⟩ := hk p (by simp)
      simp only [List.foldl_cons]
      have hstep : classifyStep (b, m, c) p = (false, m, c) := by
        simp [classifyStep, keyArrayIndex, hs]
      rw [hstep]
      exact ih false m c (fun q hq => hk q (by simp [hq]))

theorem rawget_cons_ne (p : LuaValue × LuaValue) (rest : LuaTable) (k : LuaValue)
    (h : p.1 ≠ k) : rawget (p :: rest) k = rawget rest k := by
  simp [rawget, List.find?_cons, h]

theorem rawget_cons_eq (p : LuaValue × LuaValue) (rest : LuaTable) :
    rawget (p :: rest) p.1 = p.2 := by
  simp [rawget, List.find?_cons]

theorem rawget_arr :
    ∀ (ps : LuaTable) (i : Nat),
      ps.map Prod.fst =
        (List.range ps.length).map (fun j => LuaValue.intNum (Int.ofNat (i + 1 + j))) →
      ∀ (j : Nat) (hj : j < ps.length),
        rawget ps (.intNum (Int.ofNat (i + 1 + j))) = (ps.get ⟨j, hj⟩).2 := by
  intro ps
  induction ps with
  | nil => intro i _ j hj; exact absurd hj (by simp)
  | cons p rest ih =>
      intro i hk j hj
      simp only [List.map_cons, List.length_cons, List.range_succ_eq_map, List.map_map] at hk
      obtain ⟨hp, hrest⟩ := List.cons_eq_cons.mp hk
      have hrest2 : rest.map Prod.fst =
          (List.range rest.length).map (fun a => LuaValue.intNum (Int.ofNat ((i + 1) + 1 + a))) := by
        rw [hrest]
        apply List.map_congr_left
        intro a _
        simp only [Function.comp_apply]
        congr 2
        omega
      cases j with
      | zero =>
          have : (LuaValue.intNum (Int.ofNat (i + 1 + 0))) = p.1 := by rw [hp]
          rw [this, rawget_cons_eq]
          rfl
      | succ j2 =>
          have hne : p.1 ≠ LuaValue.intNum (Int.ofNat (i + 1 + (j2 + 1))) := by
            rw [hp]
            simp
            omega
          rw [rawget_cons_ne p rest _ hne]
          have harg : LuaValue.intNum (Int.ofNat (i + 1 + (j2 + 1))) =
              LuaValue.intNum (Int.ofNat ((i + 1) + 1 + j2)) := by
            congr 2
            omega
          rw [harg, ih (i + 1) hrest2 j2 (by simpa using hj)]
          rfl

theorem conv_array_items_ok :
    ∀ (items : List JSON) (i : Nat) (T : LuaTable) (convert : LuaValue → Except String JSON),
      (∀ (j : Nat) (hj : j < items.length),
        rawget T (.intNum (Int.ofNat (i + j))) ≠ .nil ∧
        convert (rawget T (.intNum (Int.ofNat (i + j)))) = .ok (items.get ⟨j, hj⟩)) →
      conv_array_items convert T i items.length = .ok items := by
  intro items
  induction items with
  | nil => intro i T convert _; rfl
  | cons x rest ih =>
      intro i T convert hyp
      have h0 := hyp 0 (by simp)
      rw [show i + 0 = i from rfl] at h0
      simp only [List.length_cons, conv_array_items]
      rw [if_neg h0.1]
      rw [h0.2]
      have hrest := ih (i + 1) T convert (fun j hj => by
        have := hyp (j + 1) (by simpa using hj)
        rwa [show i + (j + 1) = i + 1 + j by omega] at this)
      rw [hrest]
      simp

theorem conv_object_entries_ok :
    ∀ (entries : List (String × JSON)) (ps : LuaTable) (acc : List (String × JSON))
      (convert : LuaValue → Except String JSON),
      ps.map Prod.fst = entries.map (fun e => LuaValue.str e.1) →
      (∀ (j : Nat) (hj : j < entries.length) (hj2 : j < ps.length),
        convert (ps.get ⟨j, hj2⟩).2 = .ok (entries.get ⟨j, hj⟩).2) →
      (entries.map Prod.fst).Nodup →
      (∀ e ∈ entries, List.any acc (fun p => decide (p.1 = e.1)) = false) →
      conv_object_entries convert ps acc = .ok (acc ++ entries) := by
  intro entries
  induction entries with
  | nil =>
      intro ps acc convert hk _ _ _
      have : ps = [] := by
        cases ps with
        | nil => rfl
        | cons p r => simp at hk
      subst this
      simp [conv_object_entries]
  | cons e rest ih =>
      intro ps acc convert hk hconv hnd hacc
      obtain ⟨k, x⟩ := e
      cases ps with
      | nil => simp at hk
      | cons p psr =>
          simp only [List.map_cons] at hk
          obtain ⟨hp, hrest⟩ := List.cons_eq_cons.mp hk
          obtain ⟨pk, pv⟩ := p
          simp at hp
          subst hp
          simp only [conv_object_entries]
          have hc0 := hconv 0 (by simp) (by simp)
          simp at hc0
          rw [hc0]
          have hassign : objAssign acc k x = acc ++ [(k, x)] :=
            objAssign_append_of_not_mem acc k x (hacc (k, x) (by simp))
          show conv_object_entries convert psr (objAssign acc k x) =
            Except.ok (acc ++ (k, x) :: rest)
          rw [hassign]
          simp only [List.map_cons, List.nodup_cons] at hnd
          have hih := ih psr (acc ++ [(k, x)]) convert hrest
            (fun j hj hj2 => by
              have := hconv (j + 1) (by simpa using hj) (by simpa using hj2)
              simpa using this)
            hnd.2
            (fun e2 he2 => by
              simp only [List.any_append]
              rw [hacc e2 (by simp [he2])]
              simp
              intro heq
              exact hnd.1 (by
                rw [heq]
                exact List.mem_map_of_mem Prod.fst he2))
          rw [hih]
          simp

/-- Induction payload of the round-trip argument at one JSON value: a safe,
within-limits value converts forward into an extension of any heap, its host
image is `nil` exactly for `null`, and from any further extension of that
heap -- under any visited set that avoids the freshly allocated block -- the
Host→JSON conversion returns the original value. -/
def RTP (mal mrd : Nat) (v : JSON) : Prop :=
  ∀ (d : Nat) (H : Heap),
    rtOk mal v = true →
    (mrd = 0 ∨ d + cdepth v ≤ mrd) →
    ∃ (lv : LuaValue) (Δ : Heap),
      json_to_lua_value v mrd d H = .ok (lv, H ++ Δ) ∧
      (lv = .nil ↔ v = .null) ∧
      (∀ (fuel : Nat) (seen : List Nat) (Hext : Heap),
        cdepth v < fuel →
        (∀ s ∈ seen, s < H.length ∨ H.length + Δ.length ≤ s) →
        lua_value_to_json_abs ((H ++ Δ) ++ Hext) mal mrd fuel lv seen d = .ok v)

/-- The payload of the element loop of an array conversion: it appends
pairs with consecutive integer keys to the accumulator, extends the heap,
and each stored element value converts back to the original element. -/
def RTPArr (mal mrd : Nat) (items : List JSON) : Prop :=
  ∀ (i d : Nat) (H : Heap) (acc : LuaTable),
    rtOkArr mal items = true →
    (mrd = 0 ∨ (d + 1) + arrCdepth items ≤ mrd) →
    (∀ j : Nat, i < j → tableHasKey acc (.intNum (Int.ofNat j)) = false) →
    ∃ (ps : LuaTable) (Δ : Heap),
      json_array_elems items i mrd d H acc = .ok (acc ++ ps, H ++ Δ) ∧
      ps.map Prod.fst =
        (List.range items.length).map (fun j => LuaValue.intNum (Int.ofNat (i + 1 + j))) ∧
      (∀ p ∈ ps, p.2 ≠ LuaValue.nil) ∧
      (∀ (fuel : Nat) (seen : List Nat) (Hext : Heap),
        arrCdepth items < fuel →
        (∀ s ∈ seen, s < H.length ∨ H.length + Δ.length ≤ s) →
        ∀ (j : Nat) (hj : j < items.length) (hj2 : j < ps.length),
          lua_value_to_json_abs ((H ++ Δ) ++ Hext) mal mrd fuel (ps.get ⟨j, hj2⟩).2 seen (d + 1) =
            .ok (items.get ⟨j, hj⟩))

/-- The payload of the member loop of an object conversion. -/
def RTPObj (mal mrd : Nat) (entries : List (String × JSON)) : Prop :=
  ∀ (d : Nat) (H : Heap) (acc : LuaTable),
    rtOkObj mal entries = true →
    (entries.map Prod.fst).Nodup →
    (mrd = 0 ∨ (d + 1) + objCdepth entries ≤ mrd) →
    (∀ e ∈ entries, tableHasKey acc (LuaValue.str e.1) = false) →
    ∃ (ps : LuaTable) (Δ : Heap),
      json_object_entries entries mrd d H acc = .ok (acc ++ ps, H ++ Δ) ∧
      ps.map Prod.fst = entries.map (fun e => LuaValue.str e.1) ∧
      (∀ p ∈ ps, p.2 ≠ LuaValue.nil) ∧
      (∀ (fuel : Nat) (seen : List Nat) (Hext : Heap),
        objCdepth entries < fuel →
        (∀ s ∈ seen, s < H.length ∨ H.length + Δ.length ≤ s) →
        ∀ (j : Nat) (hj : j < entries.length) (hj2 : j < ps.length),
          lua_value_to_json_abs ((H ++ Δ) ++ Hext) mal mrd fuel (ps.get ⟨j, hj2⟩).2 seen (d + 1) =
            .ok (entries.get ⟨j, hj⟩).2)

theorem range_keys_shift (i n : Nat) :
    (List.range (n + 1)).map (fun j => LuaValue.intNum (Int.ofNat (i + 1 + j))) =
      .intNum (Int.ofNat (i + 1)) ::
        (List.range n).map (fun j => LuaValue.intNum (Int.ofNat ((i + 1) + 1 + j))) := by
  rw [List.range_succ_eq_map]
  simp only [List.map_cons, List.map_map]
  refine List.cons_eq_cons.mpr ⟨by simp, ?_⟩
  apply List.map_congr_left
  intro a _
  simp only [Function.comp_apply]
  congr 2
  omega

theorem rtparr_step (mal mrd : Nat) (items : List JSON)
    (IH : ∀ x ∈ items, RTP mal mrd x) : RTPArr mal mrd items := by
  induction items with
  | nil =>
      intro i d H acc _ _ _
      refine ⟨[], [], ?_, by simp, by simp, ?_⟩
      · rw [json_array_elems.eq_def]
        simp
      · intro fuel seen Hext _ _ j hj
        exact absurd hj (by simp)
  | cons x rest ih =>
      intro i d H acc hok hmrd hacc
      obtain ⟨hxnn, hxok, hrok⟩ := rtOkArr_cons mal x rest hok
      have hcd : arrCdepth (x :: rest) = max (cdepth x) (arrCdepth rest) := by
        simp [arrCdepth]
      obtain ⟨lv, Δx, hf, hniliff, hbx⟩ :=
        IH x (by simp) (d + 1) H hxok
          (by rcases hmrd with h | h
              · exact Or.inl h
              · right; rw [hcd] at h; omega)
      have hlvnn : lv ≠ .nil := fun he => hxnn (hniliff.mp he)
      have hset : tableSet acc (.intNum (Int.ofNat (i + 1))) lv =
          acc ++ [(.intNum (Int.ofNat (i + 1)), lv)] :=
        tableSet_append_of_not_mem acc _ lv hlvnn (hacc (i + 1) (by omega))
      obtain ⟨ps2, Δ2, hf2, hkeys2, hvnn2, hback2⟩ :=
        ih (fun y hy => IH y (by simp [hy])) (i + 1) d (H ++ Δx)
          (acc ++ [(.intNum (Int.ofNat (i + 1)), lv)]) hrok
          (by rcases hmrd with h | h
              · exact Or.inl h
              · right; rw [hcd] at h; omega)
          (fun j hj => by
            rw [tableHasKey_append]
            rw [hacc j (by omega)]
            simp [tableHasKey]
            omega)
      refine ⟨(.intNum (Int.ofNat (i + 1)), lv) :: ps2, Δx ++ Δ2, ?_, ?_, ?_, ?_⟩
      · rw [json_array_elems.eq_def]
        simp only
        rw [hf]
        show json_array_elems rest (i + 1) mrd d (H ++ Δx)
            (tableSet acc (.intNum (Int.ofNat (i + 1))) lv) = _
        rw [hset, hf2]
        simp
      · simp only [List.length_cons]
        rw [range_keys_shift i rest.length]
        simp only [List.map_cons]
        rw [hkeys2]
      · intro p hp
        rcases List.mem_cons.mp hp with h | h
        · rw [h]
          exact hlvnn
        · exact hvnn2 p h
      · intro fuel seen Hext hfa hseen j hj hj2
        cases j with
        | zero =>
            have hb := hbx fuel seen (Δ2 ++ Hext)
              (by rw [hcd] at hfa; omega)
              (fun s hs => by
                rcases hseen s hs with h | h
                · exact Or.inl h
                · right
                  simp at h ⊢
                  omega)
            have heq : ((H ++ Δx) ++ (Δ2 ++ Hext)) = ((H ++ (Δx ++ Δ2)) ++ Hext) := by simp
            rw [heq] at hb
            simpa using hb
        | succ j2 =>
            have hb := hback2 fuel seen Hext
              (by rw [hcd] at hfa; omega)
              (fun s hs => by
                rcases hseen s hs with h | h
                · left
                  simp
                  omega
                · right
                  simp at h ⊢
                  omega)
              j2 (by simpa using hj) (by simpa using hj2)
            have heq : (((H ++ Δx) ++ Δ2) ++ Hext) = ((H ++ (Δx ++ Δ2)) ++ Hext) := by simp
            rw [heq] at hb
            simpa using hb

theorem rtpobj_step (mal mrd : Nat) (entries : List (String × JSON))
    (IH : ∀ e ∈ entries, RTP mal mrd e.2) : RTPObj mal mrd entries := by
  induction entries with
  | nil =>
      intro d H acc _ _ _ _
      refine ⟨[], [], ?_, by simp, by simp, ?_⟩
      · rw [json_object_entries.eq_def]
        simp
      · intro fuel seen Hext _ _ j hj
        exact absurd hj (by simp)
  | cons e rest ih =>
      obtain ⟨k, x⟩ := e
      intro d H acc hok hnd hmrd hacc
      obtain ⟨hxnn, hxok, hrok⟩ := rtOkObj_cons mal k x rest hok
      simp only [List.map_cons, List.nodup_cons] at hnd
      have hcd : objCdepth ((k, x) :: rest) = max (cdepth x) (objCdepth rest) := by
        simp [objCdepth]
      have hIHx : RTP mal mrd x := IH (k, x) (by simp)
      obtain ⟨lv, Δx, hf, hniliff, hbx⟩ :=
        hIHx (d + 1) H hxok
          (by rcases hmrd with h | h
              · exact Or.inl h
              · right; rw [hcd] at h; omega)
      have hlvnn : lv ≠ .nil := fun he => hxnn (hniliff.mp he)
      have hset : tableSet acc (.str k) lv = acc ++ [(.str k, lv)] :=
        tableSet_append_of_not_mem acc _ lv hlvnn (hacc (k, x) (by simp))
      obtain ⟨ps2, Δ2, hf2, hkeys2, hvnn2, hback2⟩ :=
        ih (fun y hy => IH y (by simp [hy])) d (H ++ Δx) (acc ++ [(.str k, lv)]) hrok hnd.2
          (by rcases hmrd with h | h
              · exact Or.inl h
              · right; rw [hcd] at h; omega)
          (fun e2 he2 => by
            rw [tableHasKey_append]
            rw [hacc e2 (by simp [he2])]
            simp [tableHasKey]
            intro heq
            exact absurd (by rw [heq]; exact List.mem_map_of_mem Prod.fst he2) hnd.1)
      refine ⟨(.str k, lv) :: ps2, Δx ++ Δ2, ?_, ?_, ?_, ?_⟩
      · rw [json_object_entries.eq_def]
        simp only
        rw [hf]
        show json_object_entries rest mrd d (H ++ Δx) (tableSet acc (.str k) lv) = _
        rw [hset, hf2]
        simp
      · simp only [List.map_cons]
        rw [hkeys2]
      · intro p hp
        rcases List.mem_cons.mp hp with h | h
        · rw [h]
          exact hlvnn
        · exact hvnn2 p h
      · intro fuel seen Hext hfa hseen j hj hj2
        cases j with
        | zero =>
            have hb := hbx fuel seen (Δ2 ++ Hext)
              (by rw [hcd] at hfa; omega)
              (fun s hs => by
                rcases hseen s hs with h | h
                · exact Or.inl h
                · right
                  simp at h ⊢
                  omega)
            have heq : ((H ++ Δx) ++ (Δ2 ++ Hext)) = ((H ++ (Δx ++ Δ2)) ++ Hext) := by simp
            rw [heq] at hb
            simpa using hb
        | succ j2 =>
            have hb := hback2 fuel seen Hext
              (by rw [hcd] at hfa; omega)
              (fun s hs => by
                rcases hseen s hs with h | h
                · left
                  simp
                  omega
                · right
                  simp at h ⊢
                  omega)
              j2 (by simpa using hj) (by simpa using hj2)
            have heq : (((H ++ Δx) ++ Δ2) ++ Hext) = ((H ++ (Δx ++ Δ2)) ++ Hext) := by simp
            rw [heq] at hb
            simpa using hb

theorem rtp_step (mal mrd : Nat) (v : JSON)
    (Harr : ∀ items, v = .arr items → RTPArr mal mrd items)
    (Hobj : ∀ entries, v = .obj entries → RTPObj mal mrd entries) :
    RTP mal mrd v := by
  intro d H hok hmrd
  have hdc : ¬ (mrd > 0 ∧ d > mrd) := by
    rcases hmrd with h | h
    · omega
    · have h2 : 0 ≤ cdepth v := Nat.zero_le _
      omega
  cases v with
  | null =>
      refine ⟨.nil, [], ?_, by simp, ?_⟩
      · rw [json_to_lua_value.eq_def, if_neg hdc]
        simp
      · intro fuel seen Hext hfuel _
        obtain ⟨f, rfl⟩ : ∃ f, fuel = f + 1 := ⟨fuel - 1, by omega⟩
        simp only [lua_value_to_json_abs]
        rw [if_neg hdc]
  | boolean b =>
      refine ⟨.boolean b, [], ?_, by simp, ?_⟩
      · rw [json_to_lua_value.eq_def, if_neg hdc]
        simp
      · intro fuel seen Hext hfuel _
        obtain ⟨f, rfl⟩ : ∃ f, fuel = f + 1 := ⟨fuel - 1, by omega⟩
        simp only [lua_value_to_json_abs]
        rw [if_neg hdc]
  | integer i =>
      refine ⟨.intNum i, [], ?_, by simp, ?_⟩
      · rw [json_to_lua_value.eq_def, if_neg hdc]
        simp
      · intro fuel seen Hext hfuel _
        obtain ⟨f, rfl⟩ : ∃ f, fuel = f + 1 := ⟨fuel - 1, by omega⟩
        simp only [lua_value_to_json_abs]
        rw [if_neg hdc]
  | str s =>
      refine ⟨.str s, [], ?_, by simp, ?_⟩
      · rw [json_to_lua_value.eq_def, if_neg hdc]
        simp
      · intro fuel seen Hext hfuel _
        obtain ⟨f, rfl⟩ : ∃ f, fuel = f + 1 := ⟨fuel - 1, by omega⟩
        simp only [lua_value_to_json_abs]
        rw [if_neg hdc]
  | real r =>
      have hfin : r.finite = true := by simpa [rtOk] using hok
      refine ⟨.floatNum r, [], ?_, by simp, ?_⟩
      · rw [json_to_lua_value.eq_def, if_neg hdc]
        simp
      · intro fuel seen Hext hfuel _
        obtain ⟨f, rfl⟩ : ∃ f, fuel = f + 1 := ⟨fuel - 1, by omega⟩
        simp only [lua_value_to_json_abs]
        rw [if_neg hdc]
        simp [hfin]
  | arr items =>
      have hA := Harr items rfl
      simp only [rtOk, Bool.and_eq_true, Bool.not_eq_true', decide_eq_true_eq,
        Bool.or_eq_true] at hok
      obtain ⟨⟨⟨hne, hmal⟩, husz⟩, harrok⟩ := hok
      have hlen0 : items.length ≠ 0 := by
        cases items
        · simp at hne
        · simp
      have hcdep : cdepth (JSON.arr items) = 1 + arrCdepth items := by simp [cdepth]
      obtain ⟨ps, Δ0, hfwd, hkeys, hvnn, hback⟩ :=
        hA 0 d H [] harrok
          (by rcases hmrd with h | h
              · exact Or.inl h
              · right; rw [hcdep] at h; omega)
          (fun j _ => rfl)
      have hlen : ps.length = items.length := by
        have h2 := congrArg List.length hkeys
        simpa using h2
      refine ⟨.table (H ++ Δ0).length, Δ0 ++ [ps], ?_, by simp, ?_⟩
      · rw [json_to_lua_value.eq_def, if_neg hdc]
        show json_array_to_lua_table items mrd d H = _
        rw [json_array_to_lua_table.eq_def, hfwd]
        simp
      · intro fuel seen Hext hfuel hseen
        obtain ⟨f, rfl⟩ : ∃ f, fuel = f + 1 := ⟨fuel - 1, by omega⟩
        have hnotin : ¬ ((H ++ Δ0).length ∈ seen) := by
          intro hin
          rcases hseen _ hin with h | h <;> simp at h
        have hcls : classifyTable ps = (true, items.length, items.length) := by
          rw [classifyTable, classify_fold_arr ps 0 true 0 0 (by rw [hlen]; exact hkeys)]
          rw [hlen]
          rw [if_neg hlen0]
          simp
        have hheq : (H ++ (Δ0 ++ [ps])) ++ Hext = ((H ++ Δ0) ++ [ps]) ++ Hext := by simp
        simp only [lua_value_to_json_abs]
        rw [if_neg hdc]
        rw [hheq]
        rw [if_neg hnotin]
        rw [heap_get_at_len (H ++ Δ0) ps Hext]
        simp only [hcls]
        rw [if_pos (by simp [hlen0])]
        rw [if_neg (by omega)]
        rw [if_neg (by rcases hmal with h | h <;> omega)]
        have hconvres : conv_array_items
            (fun w => lua_value_to_json_abs (((H ++ Δ0) ++ [ps]) ++ Hext) mal mrd f w
              ((H ++ Δ0).length :: seen) (d + 1)) ps 1 items.length = .ok items := by
          apply conv_array_items_ok
          intro j hj
          have hj2 : j < ps.length := by omega
          have hget : rawget ps (.intNum (Int.ofNat (0 + 1 + j))) = (ps.get ⟨j, hj2⟩).2 :=
            rawget_arr ps 0 (by rw [hlen]; exact hkeys) j hj2
          have hbc := hback f ((H ++ Δ0).length :: seen) ([ps] ++ Hext)
            (by rw [hcdep] at hfuel; omega)
            (fun s hs => by
              rcases List.mem_cons.mp hs with h | h
              · right
                rw [h]
                simp
              · rcases hseen s h with h2 | h2
                · exact Or.inl h2
                · right
                  simp at h2 ⊢
                  omega)
            j hj hj2
          have hheq2 : ((H ++ Δ0) ++ ([ps] ++ Hext)) = (((H ++ Δ0) ++ [ps]) ++ Hext) := by simp
          rw [hheq2] at hbc
          constructor
          · rw [hget]
            exact hvnn _ (ps.get_mem j hj2)
          · rw [hget]
            exact hbc
        rw [hconvres]
  | obj entries =>
      have hB := Hobj entries rfl
      simp only [rtOk, Bool.and_eq_true, decide_eq_true_eq] at hok
      obtain ⟨hnd, hobjok⟩ := hok
      have hcdep : cdepth (JSON.obj entries) = 1 + objCdepth entries := by simp [cdepth]
      obtain ⟨ps, Δ0, hfwd, hkeys, hvnn, hback⟩ :=
        hB d H [] hobjok hnd
          (by rcases hmrd with h | h
              · exact Or.inl h
              · right; rw [hcdep] at h; omega)
          (fun e _ => rfl)
      have hlen : ps.length = entries.length := by
        have h2 := congrArg List.length hkeys
        simpa using h2
      refine ⟨.table (H ++ Δ0).length, Δ0 ++ [ps], ?_, by simp, ?_⟩
      · rw [json_to_lua_value.eq_def, if_neg hdc]
        show json_object_to_lua_table entries mrd d H = _
        rw [json_object_to_lua_table.eq_def, hfwd]
        simp
      · intro fuel seen Hext hfuel hseen
        obtain ⟨f, rfl⟩ : ∃ f, fuel = f + 1 := ⟨fuel - 1, by omega⟩
        have hnotin : ¬ ((H ++ Δ0).length ∈ seen) := by
          intro hin
          rcases hseen _ hin with h | h <;> simp at h
        have hcnt : (classifyTable ps).2.2 = 0 := by
          rw [classifyTable]
          apply classify_count_str
          intro p hp
          have hmem : p.1 ∈ ps.map Prod.fst := List.mem_map_of_mem Prod.fst hp
          rw [hkeys] at hmem
          obtain ⟨e, _, he⟩ := List.mem_map.mp hmem
          exact ⟨e.1, he.symm⟩
        have hheq : (H ++ (Δ0 ++ [ps])) ++ Hext = ((H ++ Δ0) ++ [ps]) ++ Hext := by simp
        simp only [lua_value_to_json_abs]
        rw [if_neg hdc]
        rw [hheq]
        rw [if_neg hnotin]
        rw [heap_get_at_len (H ++ Δ0) ps Hext]
        dsimp only
        rw [if_neg (by simp [hcnt])]
        have hconvres : conv_object_entries
            (fun w => lua_value_to_json_abs (((H ++ Δ0) ++ [ps]) ++ Hext) mal mrd f w
              ((H ++ Δ0).length :: seen) (d + 1)) ps [] = .ok ([] ++ entries) := by
          apply conv_object_entries_ok entries ps [] _ hkeys _ hnd (fun _ _ => rfl)
          intro j hj hj2
          have hbc := hback f ((H ++ Δ0).length :: seen) ([ps] ++ Hext)
            (by rw [hcdep] at hfuel; omega)
            (fun s hs => by
              rcases List.mem_cons.mp hs with h | h
              · right
                rw [h]
                simp
              · rcases hseen s h with h2 | h2
                · exact Or.inl h2
                · right
                  simp at h2 ⊢
                  omega)
            j hj hj2
          have hheq2 : ((H ++ Δ0) ++ ([ps] ++ Hext)) = (((H ++ Δ0) ++ [ps]) ++ Hext) := by simp
          rw [hheq2] at hbc
          exact hbc
        rw [hconvres]
        simp

theorem rtp_all (mal mrd : Nat) : ∀ (n : Nat) (v : JSON), sizeOf v ≤ n → RTP mal mrd v := by
  intro n
  induction n with
  | zero => intro v h; cases v <;> simp at h
  | succ n ih =>
      intro v hv
      apply rtp_step
      · intro items he
        subst he
        apply rtparr_step
        intro x hx
        apply ih
        have h1 : sizeOf x < sizeOf items := List.sizeOf_lt_of_mem hx
        simp at hv
        omega
      · intro entries he
        subst he
        apply rtpobj_step
        intro e he2
        apply ih
        have h1 : sizeOf e < sizeOf entries := List.sizeOf_lt_of_mem he2
        have h2 : sizeOf e.2 < sizeOf e := by
          obtain ⟨a, b⟩ := e
          simp
        simp at hv
        omega

/-- C1 counterexample: the round trip is not the identity on every in-limits
JSON value: `[null]`, `[]` and the object with a `null` member all come back
as the empty JSON object, because a Lua table cannot hold a nil entry and an
empty table classifies as an object. -/
theorem C1_counterexample :
    roundTrip 0 0 10 (.arr [.null]) = .ok (.obj []) ∧
    roundTrip 0 0 10 (.arr []) = .ok (.obj []) ∧
    roundTrip 0 0 10 (.obj [("a", .null)]) = .ok (.obj []) ∧
    JSON.obj ([] : List (String × JSON)) ≠ .arr [.null] ∧
    JSON.obj ([] : List (String × JSON)) ≠ .arr [] ∧
    JSON.obj ([] : List (String × JSON)) ≠ .obj [("a", .null)] := by
  have h1 : json_to_lua_value (.arr [.null]) 0 0 [] = .ok (.table 0, [([] : LuaTable)]) := by
    simp [json_to_lua_value, json_array_to_lua_table, json_array_elems, tableSet]
  have h2 : json_to_lua_value (.arr []) 0 0 [] = .ok (.table 0, [([] : LuaTable)]) := by
    simp [json_to_lua_value, json_array_to_lua_table, json_array_elems]
  have h3 : json_to_lua_value (.obj [("a", .null)]) 0 0 [] = .ok (.table 0, [([] : LuaTable)]) := by
    simp [json_to_lua_value, json_object_to_lua_table, json_object_entries, tableSet]
  refine ⟨?_, ?_, ?_, by simp, by simp, by simp⟩
  · rw [roundTrip, h1]
    rfl
  · rw [roundTrip, h2]
    rfl
  · rw [roundTrip, h3]
    rfl

/-- C1 (amended): for every JSON value with no non-finite Reals, within the
configured limits, with unique object keys, in which no array is empty and
no `null` occurs as an array element or object member value, converting to
a host value and back yields the original value -- arrays preserve their
length and objects preserve all of their key/value pairs. -/
theorem C1_round_trip (v : JSON) (mal mrd fuel : Nat) (hok : rtOk mal v = true)
    (hmrd : mrd = 0 ∨ cdepth v ≤ mrd) (hfuel : cdepth v < fuel) :
    roundTrip mal mrd fuel v = .ok v := by
  obtain ⟨lv, Δ, hfwd, _, hback⟩ :=
    rtp_all mal mrd (sizeOf v) v (le_refl _) 0 [] hok
      (by rcases hmrd with h | h
          · exact Or.inl h
          · right; omega)
  rw [roundTrip, hfwd]
  show lua_value_to_json ([] ++ Δ) mal mrd fuel lv = .ok v
  have hb := hback fuel [] [] hfuel (by simp)
  rw [lua_value_to_json]
  simpa using hb

/-- Witness for C1: the amended round-trip theorem applied to a concrete
nested object. -/
theorem C1_witness :
    rtOk 0 (JSON.obj [("a", JSON.arr [JSON.integer 1, JSON.str "x"])]) = true ∧
    cdepth (JSON.obj [("a", JSON.arr [JSON.integer 1, JSON.str "x"])]) < 10 ∧
    roundTrip 0 0 10 (JSON.obj [("a", JSON.arr [JSON.integer 1, JSON.str "x"])]) =
      .ok (JSON.obj [("a", JSON.arr [JSON.integer 1, JSON.str "x"])]) := by
  have hok : rtOk 0 (JSON.obj [("a", JSON.arr [JSON.integer 1, JSON.str "x"])]) = true := by
    simp [rtOk, rtOkArr, rtOkObj, USIZE_MAX]
  have hcd : cdepth (JSON.obj [("a", JSON.arr [JSON.integer 1, JSON.str "x"])]) < 10 := by
    simp [cdepth, arrCdepth, objCdepth]
  exact ⟨hok, hcd, C1_round_trip _ 0 0 10 hok (Or.inl rfl) hcd⟩
